import Mathlib

/-!
Shallow embedding of the gotrie radix tree (src/trie.go).

Keys and data are byte strings, modelled as lists of naturals.
The Go map from bytes to edges is modelled as an association list
kept strictly sorted by key; this is a canonical representative of
the unordered Go map (lookup, insert, delete and size agree with the
map semantics).  Go distinguishes a nil map from an empty map (the
delete algorithm tests node.edges == nil), so the edge collection has
two base constructors: nilMap for the Go nil map and nil for an empty
non-nil map.
-/

mutual

inductive Node : Type where
  | mk (isLeaf : Bool) (data : List Nat) (edges : Edges)
  deriving DecidableEq

inductive Edges : Type where
  | nilMap : Edges
  | nil : Edges
  | cons (key : Nat) (label : List Nat) (next : Node) (rest : Edges)
  deriving DecidableEq

end

def Node.isLeaf : Node → Bool
  | .mk lf _ _ => lf

def Node.data : Node → List Nat
  | .mk _ dt _ => dt

def Node.edges : Node → Edges
  | .mk _ _ es => es

/-- Number of entries of the edge map (len(node.edges) in Go). -/
def lenE : Edges → Nat
  | .nilMap => 0
  | .nil => 0
  | .cons _ _ _ rest => lenE rest + 1

/-- Keys of the edge map in stored (ascending) order. -/
def rawKeys : Edges → List Nat
  | .nilMap => []
  | .nil => []
  | .cons b _ _ rest => b :: rawKeys rest

/-- Map lookup: cur.edges[k] in Go. -/
def lookupE : Edges → Nat → Option (List Nat × Node)
  | .nilMap, _ => none
  | .nil, _ => none
  | .cons b ℓ c rest, k => if k = b then some (ℓ, c) else lookupE rest k

mutual

def nodeCount : Node → Nat
  | .mk _ _ es => countE es + 1

def countE : Edges → Nat
  | .nilMap => 0
  | .nil => 0
  | .cons _ _ c rest => nodeCount c + countE rest

end

def mismatchAux : List Nat → List Nat → Nat
  | a :: as, b :: bs => if a ≠ b then 0 else mismatchAux as bs + 1
  | _, _ => 0

/-- Index of the first mismatch (src/trie.go getFirstMismatch); the Go
code swaps the arguments so that it iterates over the shorter one. -/
def getFirstMismatch (current label : List Nat) : Nat :=
  if current.length > label.length then mismatchAux label current
  else mismatchAux current label

mutual

/-- getNode walk (src/trie.go getNode): consume the key, following the
edge selected by the first unconsumed byte; fail on a partial label
match. -/
def getNode : Node → List Nat → Option Node
  | n, [] => some n
  | .mk _ _ es, b :: bs => getNodeE es b (b :: bs)

def getNodeE : Edges → Nat → List Nat → Option Node
  | .nilMap, _, _ => none
  | .nil, _, _ => none
  | .cons b' ℓ c rest, b, k =>
      if b = b' then
        if getFirstMismatch k ℓ = ℓ.length then getNode c (k.drop ℓ.length) else none
      else getNodeE rest b k

end

example : getNode (.mk false [] (.cons 1 [1,2] (.mk true [7] .nilMap) .nil)) [1,2] =
    some (.mk true [7] .nilMap) := by decide

/-- Sorted insert-or-replace into the edge map; the position chosen for
a new key keeps the association list sorted, which is the canonical
representation of the unordered Go map assignment m[k] = v. -/
def addE : Edges → Nat → List Nat → Node → Edges
  | .nilMap, b, ℓ, c => .cons b ℓ c .nil
  | .nil, b, ℓ, c => .cons b ℓ c .nil
  | .cons b' ℓ' c' rest, b, ℓ, c =>
      if b = b' then .cons b ℓ c rest
      else if b < b' then .cons b ℓ c (.cons b' ℓ' c' rest)
      else .cons b' ℓ' c' (addE rest b ℓ c)

/-- Replace the entry at a key, keeping its position (in-place mutation
of currEdge in Go). -/
def updE : Edges → Nat → List Nat × Node → Edges
  | .nilMap, _, _ => .nilMap
  | .nil, _, _ => .nil
  | .cons b' ℓ c rest, b, v => if b = b' then .cons b' v.1 v.2 rest else .cons b' ℓ c (updE rest b v)

/-- Map deletion: delete(m, k) in Go. -/
def removeE : Edges → Nat → Edges
  | .nilMap, _ => .nilMap
  | .nil, _ => .nil
  | .cons b' ℓ c rest, b => if b = b' then rest else .cons b' ℓ c (removeE rest b)

/-- First entry of the edge map (the Go code ranges over a map known to
hold exactly one entry). -/
def firstE : Edges → Option (Nat × List Nat × Node)
  | .nilMap => none
  | .nil => none
  | .cons b ℓ c _ => some (b, ℓ, c)

/-- Promote a node to a leaf holding the given data (src/trie.go
InsertItem lines 87-90: currEdge.next.isLeaf = true and data = data). -/
def markLeaf : Node → List Nat → Node
  | .mk _ _ es, d => .mk true d es

/-- Node created by splitting an edge whose label ℓ mismatches the key
at index s (src/trie.go InsertItem lines 76-93): the label tail keeps
the old child; if the key has bytes left past s they become a fresh
leaf edge (the next loop iteration in Go), otherwise the split node is
marked as the leaf for the key. -/
def splitNode (ℓ : List Nat) (s : Nat) (c : Node) (restKey : List Nat) (d : List Nat) : Node :=
  match restKey with
  | [] => .mk true d (.cons ((ℓ.drop s).headD 0) (ℓ.drop s) c .nil)
  | r :: rs => .mk false []
      (addE (.cons ((ℓ.drop s).headD 0) (ℓ.drop s) c .nil) r (r :: rs) (.mk true d .nilMap))

mutual

/-- InsertItem loop (src/trie.go InsertItem), one node per recursive
step.  On an empty remaining key the loop body never runs. -/
def insertGo : Node → List Nat → List Nat → Node
  | n, [], _ => n
  | .mk lf dt es, b :: bs, d => .mk lf dt (insertE es b (b :: bs) d)

def insertE : Edges → Nat → List Nat → List Nat → Edges
  | .nilMap, b, key, d => .cons b key (.mk true d .nilMap) .nil
  | .nil, b, key, d => .cons b key (.mk true d .nilMap) .nil
  | .cons b' ℓ c rest, b, key, d =>
      if b = b' then
        let curStr := if key.length > ℓ.length then key.take ℓ.length else key
        let s := getFirstMismatch curStr ℓ
        if s = ℓ.length then
          if key.length = ℓ.length then .cons b' ℓ (markLeaf c d) rest
          else .cons b' ℓ (insertGo c (key.drop s) d) rest
        else .cons b' (ℓ.take s) (splitNode ℓ s c (key.drop s) d) rest
      else if b < b' then .cons b key (.mk true d .nilMap) (.cons b' ℓ c rest)
      else .cons b' ℓ c (insertE rest b key d)

end

/-- Transformation of an existing edge (label ℓ, child c) by an
insertion whose remaining key starts with the edge's byte (src/trie.go
InsertItem lines 67-93): the new label and child.  Used to state the
characterisation of insertE. -/
def insertUpd (ℓ : List Nat) (c : Node) (key d : List Nat) : List Nat × Node :=
  let curStr := if key.length > ℓ.length then key.take ℓ.length else key
  let s := getFirstMismatch curStr ℓ
  if s = ℓ.length then
    if key.length = ℓ.length then (ℓ, markLeaf c d)
    else (ℓ, insertGo c (key.drop s) d)
  else (ℓ.take s, splitNode ℓ s c (key.drop s) d)

/-- Which entry of a pair of label and child an edge would be merged to
(src/trie.go delete lines 162-169): a returned child that is not a
leaf and has exactly one remaining edge is spliced away, concatenating
the labels. -/
def deleteMerge (ℓ : List Nat) (c : Node) : List Nat × Node :=
  if lenE c.edges = 1 ∧ c.isLeaf = false then
    match firstE c.edges with
    | some (_, ℓ2, g) => (ℓ ++ ℓ2, g)
    | none => (ℓ, c)
  else (ℓ, c)

mutual

/-- delete (src/trie.go delete).  The outer none models the Go runtime
panic raised by the slice expression key[len(currEdge.label):] when the
label is longer than the remaining key; some none models returning nil
(node removed); the isRoot flag models the node != t.root pointer
comparison (in a tree only the top call can see the root). -/
def deleteGo : Bool → Node → List Nat → Option (Option Node)
  | isRoot, .mk _ dt es, [] =>
      if es = .nilMap ∧ isRoot = false then some none
      else some (some (.mk false dt es))
  | isRoot, .mk lf dt es, b :: bs =>
      match deleteE es b (b :: bs) with
      | none => none
      | some (es', removed) =>
          if removed = true ∧ lenE es' = 0 ∧ lf = false ∧ isRoot = false then some none
          else some (some (.mk lf dt es'))

def deleteE : Edges → Nat → List Nat → Option (Edges × Bool)
  | .nilMap, _, _ => some (.nilMap, false)
  | .nil, _, _ => some (.nil, false)
  | .cons b' ℓ c rest, b, key =>
      if b = b' then
        if key.length < ℓ.length then none
        else
          match deleteGo false c (key.drop ℓ.length) with
          | none => none
          | some none => some (rest, true)
          | some (some c') =>
              let v := deleteMerge ℓ c'
              some (.cons b' v.1 v.2 rest, false)
      else
        match deleteE rest b key with
        | none => none
        | some (rest', removed) => some (.cons b' ℓ c rest', removed)

end

mutual

/-- Shared walk of Set (src/trie.go Set): the getNode walk, then the
data of the terminal node is replaced; none models the nil-pointer
dereference the Go code performs when getNode returns nil. -/
def setGo : Node → List Nat → List Nat → Option Node
  | .mk lf _ es, [], d => some (.mk lf d es)
  | .mk lf dt es, b :: bs, d => (setE es b (b :: bs) d).map (fun es' => .mk lf dt es')

def setE : Edges → Nat → List Nat → List Nat → Option Edges
  | .nilMap, _, _, _ => none
  | .nil, _, _, _ => none
  | .cons b' ℓ c rest, b, k, d =>
      if b = b' then
        if getFirstMismatch k ℓ = ℓ.length then
          (setGo c (k.drop ℓ.length) d).map (fun c' => .cons b' ℓ c' rest)
        else none
      else (setE rest b k d).map (fun rest' => .cons b' ℓ c rest')

end

mutual

/-- startsWith (src/trie.go startsWith): returns the node for the
prefix, paired with the extension the Go code appends to the prefix
when it ends inside an edge label (prefix + label[splitIdx:] there). -/
def startsWithGo : Node → List Nat → Option (Node × List Nat)
  | n, [] => some (n, [])
  | .mk _ _ es, b :: bs => startsWithE es b (b :: bs)

def startsWithE : Edges → Nat → List Nat → Option (Node × List Nat)
  | .nilMap, _, _ => none
  | .nil, _, _ => none
  | .cons b' ℓ c rest, b, k =>
      if b = b' then
        if getFirstMismatch k ℓ = ℓ.length then startsWithGo c (k.drop (getFirstMismatch k ℓ))
        else
          if getFirstMismatch k ℓ = k.length then some (c, ℓ.drop (getFirstMismatch k ℓ))
          else none
      else startsWithE rest b k

end

/-- Entries of the edge map in stored order (one admissible iteration
order of the unordered Go map). -/
def edgesList : Edges → List (Nat × List Nat × Node)
  | .nilMap => []
  | .nil => []
  | .cons b ℓ c rest => (b, ℓ, c) :: edgesList rest

/-- Keys (src/trie.go Keys).  The Go function recurses on the trie with
the longer prefix pref + label, re-walking from the root; every
recursive call lands strictly deeper in the tree, so the recursion
depth is bounded by the number of nodes.  The fuel argument bounds this
depth; the public wrapper supplies sufficient fuel. -/
def keysGo (root : Node) : Nat → List Nat → List (List Nat)
  | 0, _ => []
  | fuel + 1, p =>
      match startsWithGo root p with
      | none => []
      | some (n, ext) =>
          (if n.isLeaf then [p ++ ext] else []) ++
            (edgesList n.edges).flatMap (fun e => keysGo root fuel ((p ++ ext) ++ e.2.1))

/-- keys of an edge map (src/trie.go keys): collect the keys, then sort
ascending when the sorted flag is set. -/
def keysF (es : Edges) (sorted : Bool) : List Nat :=
  if sorted then (rawKeys es).insertionSort (· ≤ ·) else rawKeys es

/-- traverse (src/trie.go traverse) specialised to a callback that
always continues: the sequence of (step, path, data, isLeaf) arguments
passed to the callback in visit order.  Fuel bounds the recursion
depth (the Go recursion descends one node per call). -/
def traverseSeqF : Nat → Bool → Node → Nat → List Nat → List (Nat × List Nat × List Nat × Bool)
  | 0, _, _, _, _ => []
  | fuel + 1, sorted, n, step, path =>
      (step, path, n.data, n.isLeaf) ::
        (keysF n.edges sorted).flatMap (fun b =>
          match lookupE n.edges b with
          | none => []
          | some (ℓ, c) => traverseSeqF fuel sorted c (step + 1) (path ++ ℓ))

/-- The Trie container: a root node and the sorted traversal flag. -/
structure Trie where
  root : Node
  sorted : Bool
  deriving DecidableEq

/-- NewTrie (src/trie.go NewTrie): non-leaf root with an empty non-nil
edge map and nil data. -/
def NewTrie : Trie := ⟨.mk false [] .nil, false⟩

def Trie.InsertItem (t : Trie) (key d : List Nat) : Trie :=
  ⟨insertGo t.root key d, t.sorted⟩

def Trie.HasItem (t : Trie) (key : List Nat) : Bool :=
  match getNode t.root key with
  | some n => n.isLeaf
  | none => false

/-- GetItem (src/trie.go GetItem) returns t.getNode(key).data; when
getNode returns nil the Go code dereferences a nil pointer and
crashes, modelled as none. -/
def Trie.GetItem (t : Trie) (key : List Nat) : Option (List Nat) :=
  (getNode t.root key).map Node.data

/-- Set (src/trie.go Set): t.getNode(key).data = data; none models the
nil-pointer dereference on an absent key. -/
def Trie.Set (t : Trie) (key d : List Nat) : Option Trie :=
  (setGo t.root key d).map (fun r => ⟨r, t.sorted⟩)

/-- DeleteItem (src/trie.go DeleteItem): t.root = t.delete(t.root,
key).  none models a panic.  Both nil returns inside delete require
node != t.root, so the top-level call never yields some none; that
dead branch is also mapped to none. -/
def Trie.DeleteItem (t : Trie) (key : List Nat) : Option Trie :=
  match deleteGo true t.root key with
  | some (some r) => some ⟨r, t.sorted⟩
  | _ => none

def Trie.Keys (t : Trie) (p : List Nat) : List (List Nat) :=
  keysGo t.root (nodeCount t.root + 1) p

def Trie.traverseSeq (t : Trie) : List (Nat × List Nat × List Nat × Bool) :=
  traverseSeqF (nodeCount t.root) t.sorted t.root 0 []

/-- Traversal with the sorted flag enabled. -/
def sortedSeq (t : Trie) : List (Nat × List Nat × List Nat × Bool) :=
  traverseSeqF (nodeCount t.root) true t.root 0 []

/-- The mutating public operations. -/
inductive Op : Type where
  | ins (key data : List Nat)
  | del (key : List Nat)
  deriving DecidableEq

def applyOp (t : Trie) : Op → Option Trie
  | .ins k d => some (t.InsertItem k d)
  | .del k => t.DeleteItem k

def runOps : Trie → List Op → Option Trie
  | t, [] => some t
  | t, op :: ops =>
      match applyOp t op with
      | none => none
      | some t' => runOps t' ops

/-- Trie states reachable from NewTrie by InsertItem and DeleteItem
calls that do not panic. -/
def Reachable (t : Trie) : Prop := ∃ ops, runOps NewTrie ops = some t

def insOnly : List Op → Bool
  | [] => true
  | .ins _ _ :: ops => insOnly ops
  | .del _ :: _ => false

/-- Trie states built by insertions alone. -/
def InsReachable (t : Trie) : Prop :=
  ∃ ops, insOnly ops = true ∧ runOps NewTrie ops = some t

mutual

/-- Keys stored in the subtree of a node (model function used to state
and prove the enumeration results). -/
def subKeys : Node → List (List Nat)
  | .mk lf _ es => (if lf then [[]] else []) ++ subKeysE es

def subKeysE : Edges → List (List Nat)
  | .nilMap => []
  | .nil => []
  | .cons _ ℓ c rest => (subKeys c).map (fun s => ℓ ++ s) ++ subKeysE rest

end

/-- Boolean prefix test used in the claim statements. -/
def hasPref : List Nat → List Nat → Bool
  | [], _ => true
  | _ :: _, [] => false
  | a :: as, b :: bs => if a = b then hasPref as bs else false

/-- The key-to-data map a trie stores: data of the node a key leads to,
when that node is a leaf. -/
def stored (n : Node) (k : List Nat) : Option (List Nat) :=
  match getNode n k with
  | some m => if m.isLeaf then some m.data else none
  | none => none

/-! ### Induction principles for the mutual node/edge structure -/

theorem edgesInd {motive : Edges → Prop} (nilMap : motive .nilMap) (nil : motive .nil)
    (cons : ∀ b ℓ c rest, motive rest → motive (.cons b ℓ c rest)) : ∀ es, motive es
  | .nilMap => nilMap
  | .nil => nil
  | .cons b ℓ c rest => cons b ℓ c rest (edgesInd nilMap nil cons rest)

mutual

theorem nodeInd {P : Node → Prop} {Q : Edges → Prop}
    (mk : ∀ lf dt es, Q es → P (.mk lf dt es))
    (nilMap : Q .nilMap) (nil : Q .nil)
    (cons : ∀ b ℓ c rest, P c → Q rest → Q (.cons b ℓ c rest)) : ∀ n, P n
  | .mk lf dt es => mk lf dt es (edgesIndFull mk nilMap nil cons es)

theorem edgesIndFull {P : Node → Prop} {Q : Edges → Prop}
    (mk : ∀ lf dt es, Q es → P (.mk lf dt es))
    (nilMap : Q .nilMap) (nil : Q .nil)
    (cons : ∀ b ℓ c rest, P c → Q rest → Q (.cons b ℓ c rest)) : ∀ es, Q es
  | .nilMap => nilMap
  | .nil => nil
  | .cons b ℓ c rest =>
      cons b ℓ c rest (nodeInd mk nilMap nil cons c) (edgesIndFull mk nilMap nil cons rest)

end

/-! ### Lemmas on the mismatch index and prefixes -/

theorem hasPref_iff : ∀ p k : List Nat, hasPref p k = true ↔ ∃ s, k = p ++ s := by
  intro p
  induction p with
  | nil =>
    intro k
    constructor
    · intro _; exact ⟨k, rfl⟩
    · intro _; rfl
  | cons a as ih =>
    intro k
    cases k with
    | nil =>
      constructor
      · intro h; exact absurd h (by simp [hasPref])
      · rintro ⟨s, hs⟩; exact absurd hs (by simp)
    | cons b bs =>
      rcases eq_or_ne a b with rfl | hab
      · constructor
        · intro h
          have h' : hasPref as bs = true := by simpa [hasPref] using h
          obtain ⟨s, rfl⟩ := (ih bs).1 h'
          exact ⟨s, rfl⟩
        · rintro ⟨s, hs⟩
          have hbs : bs = as ++ s := by simpa using hs
          simpa [hasPref] using (ih bs).2 ⟨s, hbs⟩
      · constructor
        · intro h
          exact absurd h (by simp [hasPref, hab])
        · rintro ⟨s, hs⟩
          have hba : a = b := by
            simp only [List.cons_append, List.cons.injEq] at hs
            exact hs.1.symm
          exact absurd hba hab

theorem mismatchAux_comm : ∀ a b : List Nat, mismatchAux a b = mismatchAux b a := by
  intro a
  induction a with
  | nil => intro b; cases b <;> simp [mismatchAux]
  | cons x xs ih =>
    intro b
    cases b with
    | nil => simp [mismatchAux]
    | cons y ys =>
      simp only [mismatchAux]
      rcases eq_or_ne x y with rfl | h
      · simp [ih]
      · simp [h, Ne.symm h]

theorem getFirstMismatch_eq (a b : List Nat) : getFirstMismatch a b = mismatchAux a b := by
  unfold getFirstMismatch
  split
  · exact mismatchAux_comm b a
  · rfl

theorem mismatchAux_append (ℓ s : List Nat) : mismatchAux (ℓ ++ s) ℓ = ℓ.length := by
  induction ℓ with
  | nil => cases s <;> simp [mismatchAux]
  | cons x xs ih => simp [mismatchAux, ih]

theorem mismatchAux_le_left : ∀ a b : List Nat, mismatchAux a b ≤ a.length := by
  intro a
  induction a with
  | nil => intro b; cases b <;> simp [mismatchAux]
  | cons x xs ih =>
    intro b
    cases b with
    | nil => simp [mismatchAux]
    | cons y ys =>
      simp only [mismatchAux]
      split
      · simp
      · simpa using ih ys

theorem mismatchAux_le_right (a b : List Nat) : mismatchAux a b ≤ b.length := by
  rw [mismatchAux_comm]; exact mismatchAux_le_left b a

theorem mismatchAux_eq_len_iff : ∀ k ℓ : List Nat, mismatchAux k ℓ = ℓ.length ↔ ∃ s, k = ℓ ++ s := by
  intro k
  induction k with
  | nil =>
    intro ℓ
    cases ℓ with
    | nil => simp [mismatchAux]
    | cons y ys => simp [mismatchAux]
  | cons x xs ih =>
    intro ℓ
    cases ℓ with
    | nil =>
      simp [mismatchAux]
    | cons y ys =>
      simp only [mismatchAux, List.length_cons, List.cons_append]
      rcases eq_or_ne x y with rfl | h
      · simp only [ne_eq, not_true_eq_false, if_false, Nat.add_right_cancel_iff, ih ys]
        constructor
        · rintro ⟨s, rfl⟩; exact ⟨s, rfl⟩
        · rintro ⟨s, hs⟩
          simp only [List.cons.injEq] at hs
          exact ⟨s, hs.2⟩
      · simp only [if_pos h]
        constructor
        · intro h0; omega
        · rintro ⟨s, hs⟩
          simp only [List.cons.injEq] at hs
          exact absurd hs.1 h

theorem mismatchAux_take_eq : ∀ a b : List Nat, a.take (mismatchAux a b) = b.take (mismatchAux a b) := by
  intro a
  induction a with
  | nil => intro b; cases b <;> simp [mismatchAux]
  | cons x xs ih =>
    intro b
    cases b with
    | nil => simp [mismatchAux]
    | cons y ys =>
      simp only [mismatchAux]
      rcases eq_or_ne x y with rfl | h
      · simp [ih]
      · simp [h]

theorem mismatchAux_drop_head_ne : ∀ a b : List Nat,
    mismatchAux a b < a.length → mismatchAux a b < b.length →
    (a.drop (mismatchAux a b)).head? ≠ (b.drop (mismatchAux a b)).head? := by
  intro a
  induction a with
  | nil => intro b ha; simp at ha
  | cons x xs ih =>
    intro b
    cases b with
    | nil => intro _ hb; simp at hb
    | cons y ys =>
      intro ha hb
      simp only [mismatchAux] at ha hb ⊢
      rcases eq_or_ne x y with rfl | h
      · simp only [ne_eq, not_true_eq_false, if_false, List.length_cons] at ha hb ⊢
        simpa using ih ys (by omega) (by omega)
      · simp [h]

theorem mismatchAux_truncate (key : List Nat) : ∀ ℓ : List Nat,
    mismatchAux (key.take ℓ.length) ℓ = mismatchAux key ℓ := by
  induction key with
  | nil => intro ℓ; cases ℓ <;> simp [mismatchAux]
  | cons x xs ih =>
    intro ℓ
    cases ℓ with
    | nil => simp [mismatchAux]
    | cons y ys => simp [mismatchAux, ih]

/-- The mismatch index computed in the insertion loop over the possibly
truncated key equals the plain mismatch index. -/
theorem insert_s_eq (key ℓ : List Nat) :
    getFirstMismatch (if key.length > ℓ.length then key.take ℓ.length else key) ℓ =
      mismatchAux key ℓ := by
  split
  · rw [getFirstMismatch_eq, mismatchAux_truncate]
  · rw [getFirstMismatch_eq]

/-! ### Edge-map machinery -/

/-- The canonical association list stores keys in strictly ascending
order. -/
def sortedE (es : Edges) : Prop := (rawKeys es).Pairwise (· < ·)

theorem lookupE_none_iff (es : Edges) (b : Nat) :
    lookupE es b = none ↔ b ∉ rawKeys es := by
  induction es using edgesInd with
  | nilMap => simp [lookupE, rawKeys]
  | nil => simp [lookupE, rawKeys]
  | cons b' ℓ c rest ih =>
    simp only [lookupE, rawKeys, List.mem_cons]
    rcases eq_or_ne b b' with h | h
    · simp [h]
    · simp [h, ih]

theorem lookupE_mem_keys {es : Edges} {b : Nat} {v : List Nat × Node}
    (h : lookupE es b = some v) : b ∈ rawKeys es := by
  by_contra hmem
  rw [← lookupE_none_iff] at hmem
  rw [hmem] at h
  cases h

theorem lookupE_addE_self (es : Edges) (b : Nat) (ℓ : List Nat) (c : Node) :
    lookupE (addE es b ℓ c) b = some (ℓ, c) := by
  induction es using edgesInd with
  | nilMap => simp [addE, lookupE]
  | nil => simp [addE, lookupE]
  | cons b' ℓ' c' rest ih =>
    simp only [addE]
    rcases eq_or_ne b b' with h | h
    · simp [h, lookupE]
    · rcases lt_or_gt_of_ne h with hlt | hgt
      · simp [h, if_pos hlt, lookupE]
      · have hnlt : ¬ b < b' := by omega
        simp [h, hnlt, lookupE, ih]

theorem lookupE_addE_ne (es : Edges) {b b' : Nat} (ℓ : List Nat) (c : Node) (h : b' ≠ b) :
    lookupE (addE es b ℓ c) b' = lookupE es b' := by
  induction es using edgesInd with
  | nilMap => simp [addE, lookupE, h]
  | nil => simp [addE, lookupE, h]
  | cons b'' ℓ'' c'' rest ih =>
    simp only [addE]
    rcases eq_or_ne b b'' with hb | hb
    · subst hb; simp [lookupE, h]
    · rcases lt_or_gt_of_ne hb with hlt | hgt
      · simp [hb, if_pos hlt, lookupE, h]
      · have hnlt : ¬ b < b'' := by omega
        simp only [if_neg hb, if_neg hnlt, lookupE]
        rcases eq_or_ne b' b'' with hb' | hb'
        · simp [hb']
        · simp [hb', ih]

theorem lookupE_updE_self {es : Edges} {b : Nat} {w : List Nat × Node}
    (h : lookupE es b = some w) (v : List Nat × Node) :
    lookupE (updE es b v) b = some v := by
  induction es using edgesInd with
  | nilMap => cases h
  | nil => cases h
  | cons b' ℓ c rest ih =>
    simp only [updE]
    rcases eq_or_ne b b' with hb | hb
    · simp [hb, lookupE]
    · simp only [lookupE, if_neg hb] at h
      simp [hb, lookupE, ih h]

theorem lookupE_updE_ne (es : Edges) {b b' : Nat} (v : List Nat × Node) (h : b' ≠ b) :
    lookupE (updE es b v) b' = lookupE es b' := by
  induction es using edgesInd with
  | nilMap => simp [updE]
  | nil => simp [updE]
  | cons b'' ℓ c rest ih =>
    simp only [updE]
    rcases eq_or_ne b b'' with hb | hb
    · subst hb; simp [lookupE, h]
    · rcases eq_or_ne b' b'' with hb' | hb'
      · simp [hb, lookupE, hb']
      · simp [hb, lookupE, hb', ih]

theorem lookupE_removeE_ne (es : Edges) {b b' : Nat} (h : b' ≠ b) :
    lookupE (removeE es b) b' = lookupE es b' := by
  induction es using edgesInd with
  | nilMap => simp [removeE]
  | nil => simp [removeE]
  | cons b'' ℓ c rest ih =>
    simp only [removeE]
    rcases eq_or_ne b b'' with hb | hb
    · subst hb; simp [lookupE, h]
    · rcases eq_or_ne b' b'' with hb' | hb'
      · simp [hb, lookupE, hb']
      · simp [hb, lookupE, hb', ih]

theorem rawKeys_updE (es : Edges) (b : Nat) (v : List Nat × Node) :
    rawKeys (updE es b v) = rawKeys es := by
  induction es using edgesInd with
  | nilMap => rfl
  | nil => rfl
  | cons b' ℓ c rest ih =>
    simp only [updE]
    rcases eq_or_ne b b' with hb | hb
    · simp [hb, rawKeys]
    · simp [hb, rawKeys, ih]

theorem rawKeys_removeE_sublist (es : Edges) (b : Nat) :
    (rawKeys (removeE es b)).Sublist (rawKeys es) := by
  induction es using edgesInd with
  | nilMap => simp [removeE]
  | nil => simp [removeE]
  | cons b' ℓ c rest ih =>
    simp only [removeE]
    rcases eq_or_ne b b' with hb | hb
    · simp only [if_pos hb, rawKeys]
      exact List.sublist_cons_self b' (rawKeys rest)
    · simp only [if_neg hb, rawKeys]
      exact ih.cons₂ b'

theorem sortedE_updE {es : Edges} (hs : sortedE es) (b : Nat) (v : List Nat × Node) :
    sortedE (updE es b v) := by
  unfold sortedE
  rw [rawKeys_updE]
  exact hs

theorem sortedE_removeE {es : Edges} (hs : sortedE es) (b : Nat) :
    sortedE (removeE es b) :=
  hs.sublist (rawKeys_removeE_sublist es b)

theorem mem_rawKeys_addE {es : Edges} {a b : Nat} {ℓ : List Nat} {c : Node}
    (h : a ∈ rawKeys (addE es b ℓ c)) : a = b ∨ a ∈ rawKeys es := by
  induction es using edgesInd with
  | nilMap => simp only [addE, rawKeys, List.mem_cons, List.not_mem_nil, or_false] at h; exact Or.inl h
  | nil => simp only [addE, rawKeys, List.mem_cons, List.not_mem_nil, or_false] at h; exact Or.inl h
  | cons b' ℓ' c' rest ih =>
    simp only [addE] at h
    rcases eq_or_ne b b' with hb | hb
    · subst hb
      simp only [if_pos rfl, rawKeys, List.mem_cons] at h
      simpa [rawKeys] using h
    · rcases lt_or_gt_of_ne hb with hlt | hgt
      · simp only [if_neg hb, if_pos hlt, rawKeys, List.mem_cons] at h
        simpa [rawKeys, List.mem_cons, or_assoc] using h
      · have hnlt : ¬ b < b' := by omega
        simp only [if_neg hb, if_neg hnlt, rawKeys, List.mem_cons] at h
        rcases h with rfl | h
        · simp [rawKeys]
        · rcases ih h with h' | h'
          · exact Or.inl h'
          · exact Or.inr (by simp [rawKeys, h'])

theorem sortedE_addE {es : Edges} (hs : sortedE es) (b : Nat) (ℓ : List Nat) (c : Node) :
    sortedE (addE es b ℓ c) := by
  induction es using edgesInd with
  | nilMap => simp [addE, sortedE, rawKeys]
  | nil => simp [addE, sortedE, rawKeys]
  | cons b' ℓ' c' rest ih =>
    unfold sortedE at hs ⊢
    simp only [rawKeys, List.pairwise_cons] at hs
    simp only [addE]
    rcases eq_or_ne b b' with hb | hb
    · subst hb
      simp only [if_pos rfl, rawKeys, List.pairwise_cons]
      exact hs
    · rcases lt_or_gt_of_ne hb with hlt | hgt
      · simp only [if_neg hb, if_pos hlt, rawKeys, List.pairwise_cons, List.mem_cons]
        refine ⟨?_, hs.1, hs.2⟩
        rintro a (rfl | ha)
        · exact hlt
        · exact hlt.trans (hs.1 a ha)
      · have hnlt : ¬ b < b' := by omega
        simp only [if_neg hb, if_neg hnlt, rawKeys, List.pairwise_cons]
        refine ⟨?_, ih hs.2⟩
        intro a ha
        rcases mem_rawKeys_addE ha with rfl | h'
        · exact hgt
        · exact hs.1 a h'

theorem lenE_eq_zero_iff (es : Edges) : lenE es = 0 ↔ es = .nilMap ∨ es = .nil := by
  cases es <;> simp [lenE]

theorem lenE_updE (es : Edges) (b : Nat) (v : List Nat × Node) :
    lenE (updE es b v) = lenE es := by
  induction es using edgesInd with
  | nilMap => rfl
  | nil => rfl
  | cons b' ℓ c rest ih =>
    simp only [updE]
    rcases eq_or_ne b b' with hb | hb
    · simp [hb, lenE]
    · simp [hb, lenE, ih]

/-! ### Evaluating the getNode walk -/

theorem gfm_len_iff (k ℓ : List Nat) :
    getFirstMismatch k ℓ = ℓ.length ↔ ∃ s, k = ℓ ++ s := by
  rw [getFirstMismatch_eq, mismatchAux_eq_len_iff]

theorem getNode_nil_key (n : Node) : getNode n [] = some n := by
  cases n; rfl

theorem getNodeE_none {es : Edges} {b : Nat} (hb : lookupE es b = none) (k : List Nat) :
    getNodeE es b k = none := by
  induction es using edgesInd with
  | nilMap => rfl
  | nil => rfl
  | cons b' ℓ' c' rest ih =>
    simp only [lookupE] at hb
    simp only [getNodeE]
    rcases eq_or_ne b b' with hbb | hbb
    · simp [hbb] at hb
    · simp only [if_neg hbb] at hb ⊢
      exact ih hb

theorem getNodeE_some {es : Edges} {b : Nat} {ℓ : List Nat} {c : Node}
    (hb : lookupE es b = some (ℓ, c)) (k : List Nat) :
    getNodeE es b k =
      if getFirstMismatch k ℓ = ℓ.length then getNode c (k.drop ℓ.length) else none := by
  induction es using edgesInd with
  | nilMap => cases hb
  | nil => cases hb
  | cons b' ℓ' c' rest ih =>
    simp only [lookupE] at hb
    simp only [getNodeE]
    rcases eq_or_ne b b' with hbb | hbb
    · simp only [if_pos hbb] at hb ⊢
      simp only [Option.some.injEq, Prod.mk.injEq] at hb
      obtain ⟨rfl, rfl⟩ := hb
      rfl
    · simp only [if_neg hbb] at hb ⊢
      exact ih hb

theorem getNode_cons (lf : Bool) (dt : List Nat) (es : Edges) (b : Nat) (bs : List Nat) :
    getNode (.mk lf dt es) (b :: bs) = getNodeE es b (b :: bs) := rfl

theorem getNode_cons_none {es : Edges} {b : Nat} (hb : lookupE es b = none)
    (lf : Bool) (dt : List Nat) (bs : List Nat) :
    getNode (.mk lf dt es) (b :: bs) = none := by
  rw [getNode_cons]; exact getNodeE_none hb _

theorem getNode_cons_some {es : Edges} {b : Nat} {ℓ : List Nat} {c : Node}
    (hb : lookupE es b = some (ℓ, c)) (lf : Bool) (dt : List Nat) (bs : List Nat) :
    getNode (.mk lf dt es) (b :: bs) =
      if getFirstMismatch (b :: bs) ℓ = ℓ.length then getNode c ((b :: bs).drop ℓ.length)
      else none := by
  rw [getNode_cons]; exact getNodeE_some hb _

theorem getNode_through {es : Edges} {b : Nat} {ℓ : List Nat} {c : Node}
    (hb : lookupE es b = some (ℓ, c)) (hhead : ℓ.head? = some b)
    (lf : Bool) (dt : List Nat) (s : List Nat) :
    getNode (.mk lf dt es) (ℓ ++ s) = getNode c s := by
  obtain ⟨xs, rfl⟩ : ∃ xs, ℓ = b :: xs := by
    cases ℓ with
    | nil => cases hhead
    | cons x xs =>
      have hx : x = b := by simpa using hhead
      exact ⟨xs, by rw [hx]⟩
  rw [List.cons_append, getNode_cons_some hb]
  have h1 : getFirstMismatch (b :: (xs ++ s)) (b :: xs) = (b :: xs).length := by
    rw [getFirstMismatch_eq]
    have := mismatchAux_append (b :: xs) s
    simpa using this
  rw [if_pos h1]
  congr 1
  simp

theorem getNode_not_through {es : Edges} {b : Nat} {ℓ : List Nat} {c : Node} {k : List Nat}
    (hb : lookupE es b = some (ℓ, c)) (hk : k.head? = some b)
    (hnp : ∀ s, k ≠ ℓ ++ s) (lf : Bool) (dt : List Nat) :
    getNode (.mk lf dt es) k = none := by
  obtain ⟨bs, rfl⟩ : ∃ bs, k = b :: bs := by
    cases k with
    | nil => cases hk
    | cons x xs =>
      have hx : x = b := by simpa using hk
      exact ⟨xs, by rw [hx]⟩
  rw [getNode_cons_some hb, if_neg]
  rw [gfm_len_iff]
  rintro ⟨s, hs⟩
  exact hnp s hs

theorem getNode_no_edge {es : Edges} {b : Nat} {k : List Nat}
    (hb : lookupE es b = none) (hk : k.head? = some b) (lf : Bool) (dt : List Nat) :
    getNode (.mk lf dt es) k = none := by
  obtain ⟨bs, rfl⟩ : ∃ bs, k = b :: bs := by
    cases k with
    | nil => cases hk
    | cons x xs =>
      have hx : x = b := by simpa using hk
      exact ⟨xs, by rw [hx]⟩
  exact getNode_cons_none hb _ _ _

theorem stored_nil_key (lf : Bool) (dt : List Nat) (es : Edges) :
    stored (.mk lf dt es) [] = if lf then some dt else none := by
  simp [stored, getNode_nil_key, Node.isLeaf, Node.data]

theorem stored_through {es : Edges} {b : Nat} {ℓ : List Nat} {c : Node}
    (hb : lookupE es b = some (ℓ, c)) (hhead : ℓ.head? = some b)
    (lf : Bool) (dt : List Nat) (s : List Nat) :
    stored (.mk lf dt es) (ℓ ++ s) = stored c s := by
  unfold stored
  rw [getNode_through hb hhead]

theorem stored_not_through {es : Edges} {b : Nat} {ℓ : List Nat} {c : Node} {k : List Nat}
    (hb : lookupE es b = some (ℓ, c)) (hk : k.head? = some b)
    (hnp : ∀ s, k ≠ ℓ ++ s) (lf : Bool) (dt : List Nat) :
    stored (.mk lf dt es) k = none := by
  unfold stored
  rw [getNode_not_through hb hk hnp]

theorem stored_no_edge {es : Edges} {b : Nat} {k : List Nat}
    (hb : lookupE es b = none) (hk : k.head? = some b) (lf : Bool) (dt : List Nat) :
    stored (.mk lf dt es) k = none := by
  unfold stored
  rw [getNode_no_edge hb hk]

theorem hasItem_eq_stored (t : Trie) (k : List Nat) :
    t.HasItem k = (stored t.root k).isSome := by
  unfold Trie.HasItem stored
  cases getNode t.root k with
  | none => rfl
  | some m => cases hm : m.isLeaf <;> simp [hm]

/-! ### Node counting, for strong induction -/

theorem nodeCount_pos (n : Node) : 0 < nodeCount n := by
  cases n; simp [nodeCount]

theorem lookupE_countE {es : Edges} {b : Nat} {ℓ : List Nat} {c : Node}
    (h : lookupE es b = some (ℓ, c)) : nodeCount c ≤ countE es := by
  induction es using edgesInd with
  | nilMap => cases h
  | nil => cases h
  | cons b' ℓ' c' rest ih =>
    simp only [lookupE] at h
    rcases eq_or_ne b b' with hbb | hbb
    · simp only [if_pos hbb, Option.some.injEq, Prod.mk.injEq] at h
      obtain ⟨rfl, rfl⟩ := h
      simp [countE]
    · simp only [if_neg hbb] at h
      have := ih h
      simp only [countE]
      omega

theorem lookupE_nodeCount_lt {es : Edges} {b : Nat} {ℓ : List Nat} {c : Node}
    (h : lookupE es b = some (ℓ, c)) (lf : Bool) (dt : List Nat) :
    nodeCount c < nodeCount (.mk lf dt es) := by
  have := lookupE_countE h
  simp only [nodeCount]
  omega

/-! ### The structural invariant maintained by the operations -/

inductive WF : Node → Prop where
  | mk (lf : Bool) (dt : List Nat) (es : Edges) :
      sortedE es →
      (∀ b ℓ c, lookupE es b = some (ℓ, c) → ℓ.head? = some b) →
      (∀ b ℓ c, lookupE es b = some (ℓ, c) → WF c) →
      WF (.mk lf dt es)

theorem WF.sorted {lf : Bool} {dt : List Nat} {es : Edges}
    (h : WF (.mk lf dt es)) : sortedE es := by
  cases h; assumption

theorem WF.head {lf : Bool} {dt : List Nat} {es : Edges} (h : WF (.mk lf dt es)) :
    ∀ b ℓ c, lookupE es b = some (ℓ, c) → ℓ.head? = some b := by
  cases h; assumption

theorem WF.child {lf : Bool} {dt : List Nat} {es : Edges} (h : WF (.mk lf dt es)) :
    ∀ b ℓ c, lookupE es b = some (ℓ, c) → WF c := by
  cases h; assumption

theorem WF_leaf (d : List Nat) : WF (.mk true d .nilMap) := by
  refine WF.mk _ _ _ ?_ ?_ ?_
  · simp [sortedE, rawKeys]
  · intro b ℓ c h; cases h
  · intro b ℓ c h; cases h

theorem WF_markLeaf {c : Node} (h : WF c) (d : List Nat) : WF (markLeaf c d) := by
  cases c with
  | mk lf dt es =>
    cases h
    exact WF.mk _ _ _ (by assumption) (by assumption) (by assumption)

/-! ### Characterising one insertion step -/

theorem insertGo_nil (n : Node) (d : List Nat) : insertGo n [] d = n := by
  cases n; rfl

theorem insertGo_cons (lf : Bool) (dt : List Nat) (es : Edges) (b : Nat) (bs d : List Nat) :
    insertGo (.mk lf dt es) (b :: bs) d = .mk lf dt (insertE es b (b :: bs) d) := rfl

theorem sortedE_rest {b : Nat} {ℓ : List Nat} {c : Node} {rest : Edges}
    (h : sortedE (.cons b ℓ c rest)) : sortedE rest := by
  unfold sortedE at h ⊢
  simp only [rawKeys, List.pairwise_cons] at h
  exact h.2

theorem sortedE_head_lt {b : Nat} {ℓ : List Nat} {c : Node} {rest : Edges}
    (h : sortedE (.cons b ℓ c rest)) {a : Nat} (ha : a ∈ rawKeys rest) : b < a := by
  unfold sortedE at h
  simp only [rawKeys, List.pairwise_cons] at h
  exact h.1 a ha

theorem insertE_found {es : Edges} {b : Nat} {ℓ : List Nat} {c : Node} (hs : sortedE es)
    (hb : lookupE es b = some (ℓ, c)) (key d : List Nat) :
    insertE es b key d = updE es b (insertUpd ℓ c key d) := by
  induction es using edgesInd with
  | nilMap => cases hb
  | nil => cases hb
  | cons b' ℓ' c' rest ih =>
    simp only [lookupE] at hb
    rcases eq_or_ne b b' with hbb | hbb
    · simp only [if_pos hbb] at hb
      simp only [Option.some.injEq, Prod.mk.injEq] at hb
      obtain ⟨rfl, rfl⟩ := hb
      simp only [insertE, insertUpd, updE, if_pos hbb]
      split_ifs <;> rfl
    · simp only [if_neg hbb] at hb
      simp only [insertE, updE, if_neg hbb]
      rcases lt_or_gt_of_ne hbb with hlt | hgt
      · have hmem := lookupE_mem_keys hb
        have := sortedE_head_lt hs hmem
        omega
      · have hnlt : ¬ b < b' := by omega
        simp only [if_neg hnlt]
        rw [ih (sortedE_rest hs) hb]

theorem insertE_absent {es : Edges} {b : Nat} (hb : lookupE es b = none) (key d : List Nat) :
    insertE es b key d = addE es b key (.mk true d .nilMap) := by
  induction es using edgesInd with
  | nilMap => rfl
  | nil => rfl
  | cons b' ℓ' c' rest ih =>
    simp only [lookupE] at hb
    rcases eq_or_ne b b' with hbb | hbb
    · simp [hbb] at hb
    · simp only [if_neg hbb] at hb
      simp only [insertE, addE, if_neg hbb]
      rcases lt_or_gt_of_ne hbb with hlt | hgt
      · simp [hlt]
      · have hnlt : ¬ b < b' := by omega
        simp only [if_neg hnlt]
        rw [ih hb]

theorem insertUpd_eq (ℓ : List Nat) (c : Node) (key d : List Nat) :
    insertUpd ℓ c key d =
      if mismatchAux key ℓ = ℓ.length then
        if key.length = ℓ.length then (ℓ, markLeaf c d)
        else (ℓ, insertGo c (key.drop (mismatchAux key ℓ)) d)
      else (ℓ.take (mismatchAux key ℓ),
        splitNode ℓ (mismatchAux key ℓ) c (key.drop (mismatchAux key ℓ)) d) := by
  simp only [insertUpd, insert_s_eq]

/-! ### Small list facts used in the split case -/

theorem head?_take {s : Nat} (hs : 1 ≤ s) (ℓ : List Nat) : (ℓ.take s).head? = ℓ.head? := by
  cases ℓ with
  | nil => simp
  | cons x xs =>
    cases s with
    | zero => omega
    | succ s => simp

theorem head?_headD {l : List Nat} (h : l ≠ []) : l.head? = some (l.headD 0) := by
  cases l with
  | nil => exact absurd rfl h
  | cons x xs => rfl

theorem drop_ne_nil {l : List Nat} {s : Nat} (h : s < l.length) : l.drop s ≠ [] := by
  intro hc
  have := List.drop_eq_nil_iff.mp hc
  omega

theorem mismatch_head_pos {k ℓ : List Nat} {b : Nat}
    (hk : k.head? = some b) (hl : ℓ.head? = some b) : 1 ≤ mismatchAux k ℓ := by
  cases k with
  | nil => cases hk
  | cons x xs =>
    cases ℓ with
    | nil => cases hl
    | cons y ys =>
      have hx : x = b := by simpa using hk
      have hy : y = b := by simpa using hl
      subst hx; subst hy
      simp [mismatchAux]

theorem take_append_drop_self (l : List Nat) (s : Nat) : l.take s ++ l.drop s = l :=
  List.take_append_drop s l

/-- The two keys of a split node differ: the byte of the key after the
mismatch differs from the byte of the label after the mismatch. -/
theorem split_heads_ne {key ℓ : List Nat} (hk : mismatchAux key ℓ < key.length)
    (hl : mismatchAux key ℓ < ℓ.length) :
    (key.drop (mismatchAux key ℓ)).headD 0 ≠ (ℓ.drop (mismatchAux key ℓ)).headD 0 := by
  have h := mismatchAux_drop_head_ne key ℓ hk hl
  have h1 := head?_headD (drop_ne_nil hk)
  have h2 := head?_headD (drop_ne_nil hl)
  intro hc
  apply h
  rw [h1, h2, hc]

/-! ### Insertion preserves the invariant -/

theorem WF_splitNode {ℓ : List Nat} {c : Node} {key d : List Nat}
    (hc : WF c) (hs1 : 1 ≤ mismatchAux key ℓ) (hs2 : mismatchAux key ℓ < ℓ.length)
    (hrest : key.drop (mismatchAux key ℓ) ≠ [] → mismatchAux key ℓ < key.length) :
    WF (splitNode ℓ (mismatchAux key ℓ) c (key.drop (mismatchAux key ℓ)) d) := by
  set s := mismatchAux key ℓ with hsdef
  have htail : ℓ.drop s ≠ [] := drop_ne_nil hs2
  have htailh : (ℓ.drop s).head? = some ((ℓ.drop s).headD 0) := head?_headD htail
  cases hrk : key.drop s with
  | nil =>
    simp only [splitNode]
    refine WF.mk _ _ _ ?_ ?_ ?_
    · simp [sortedE, rawKeys]
    · intro b' ℓ' c' h
      simp only [lookupE] at h
      by_cases hbb : b' = (ℓ.drop s).headD 0
      · rw [if_pos hbb] at h
        simp only [Option.some.injEq, Prod.mk.injEq] at h
        obtain ⟨rfl, rfl⟩ := h
        rw [htailh, hbb]
      · rw [if_neg hbb] at h
        cases h
    · intro b' ℓ' c' h
      simp only [lookupE] at h
      by_cases hbb : b' = (ℓ.drop s).headD 0
      · rw [if_pos hbb] at h
        simp only [Option.some.injEq, Prod.mk.injEq] at h
        obtain ⟨rfl, rfl⟩ := h
        exact hc
      · rw [if_neg hbb] at h
        cases h
  | cons r rs =>
    have hks : s < key.length := hrest (by rw [hrk]; simp)
    have hrne : r ≠ (ℓ.drop s).headD 0 := by
      have := split_heads_ne hks hs2
      rw [hrk] at this
      simpa using this
    simp only [splitNode]
    refine WF.mk _ _ _ ?_ ?_ ?_
    · apply sortedE_addE
      simp [sortedE, rawKeys]
    · intro b' ℓ' c' h
      rcases eq_or_ne b' r with hbr | hbr
      · subst hbr
        rw [lookupE_addE_self] at h
        simp only [Option.some.injEq, Prod.mk.injEq] at h
        obtain ⟨rfl, rfl⟩ := h
        rfl
      · rw [lookupE_addE_ne _ _ _ hbr] at h
        simp only [lookupE] at h
        by_cases hbb : b' = (ℓ.drop s).headD 0
        · rw [if_pos hbb] at h
          simp only [Option.some.injEq, Prod.mk.injEq] at h
          obtain ⟨rfl, rfl⟩ := h
          rw [htailh, hbb]
        · rw [if_neg hbb] at h
          cases h
    · intro b' ℓ' c' h
      rcases eq_or_ne b' r with hbr | hbr
      · subst hbr
        rw [lookupE_addE_self] at h
        simp only [Option.some.injEq, Prod.mk.injEq] at h
        obtain ⟨rfl, rfl⟩ := h
        exact WF_leaf d
      · rw [lookupE_addE_ne _ _ _ hbr] at h
        simp only [lookupE] at h
        by_cases hbb : b' = (ℓ.drop s).headD 0
        · rw [if_pos hbb] at h
          simp only [Option.some.injEq, Prod.mk.injEq] at h
          obtain ⟨rfl, rfl⟩ := h
          exact hc
        · rw [if_neg hbb] at h
          cases h

theorem insertGo_WF_aux : ∀ N n, nodeCount n ≤ N → WF n →
    ∀ key d, WF (insertGo n key d) := by
  intro N
  induction N with
  | zero =>
    intro n hle
    have := nodeCount_pos n
    omega
  | succ N ih =>
    intro n hle hWF key d
    cases key with
    | nil => rw [insertGo_nil]; exact hWF
    | cons b bs =>
      cases n with
      | mk lf dt es =>
        rw [insertGo_cons]
        cases hb : lookupE es b with
        | none =>
          rw [insertE_absent hb]
          refine WF.mk _ _ _ (sortedE_addE hWF.sorted _ _ _) ?_ ?_
          · intro b' ℓ' c' h
            rcases eq_or_ne b' b with hbb | hbb
            · subst hbb
              rw [lookupE_addE_self] at h
              simp only [Option.some.injEq, Prod.mk.injEq] at h
              obtain ⟨rfl, rfl⟩ := h
              rfl
            · rw [lookupE_addE_ne _ _ _ hbb] at h
              exact hWF.head _ _ _ h
          · intro b' ℓ' c' h
            rcases eq_or_ne b' b with hbb | hbb
            · subst hbb
              rw [lookupE_addE_self] at h
              simp only [Option.some.injEq, Prod.mk.injEq] at h
              obtain ⟨rfl, rfl⟩ := h
              exact WF_leaf d
            · rw [lookupE_addE_ne _ _ _ hbb] at h
              exact hWF.child _ _ _ h
        | some v =>
          obtain ⟨ℓ, c⟩ := v
          rw [insertE_found hWF.sorted hb]
          have hchild : WF c := hWF.child _ _ _ hb
          have hhead : ℓ.head? = some b := hWF.head _ _ _ hb
          have hu : (insertUpd ℓ c (b :: bs) d).1.head? = some b ∧
              WF (insertUpd ℓ c (b :: bs) d).2 := by
            rw [insertUpd_eq]
            have hpos : 1 ≤ mismatchAux (b :: bs) ℓ := mismatch_head_pos (by rfl) hhead
            by_cases hif : mismatchAux (b :: bs) ℓ = ℓ.length
            · rw [if_pos hif]
              by_cases hlen : (b :: bs).length = ℓ.length
              · rw [if_pos hlen]
                exact ⟨hhead, WF_markLeaf hchild d⟩
              · rw [if_neg hlen]
                refine ⟨hhead, ?_⟩
                have hlt := lookupE_nodeCount_lt hb lf dt
                exact ih c (by omega) hchild _ d
            · rw [if_neg hif]
              have hs2 : mismatchAux (b :: bs) ℓ < ℓ.length := by
                have := mismatchAux_le_right (b :: bs) ℓ
                omega
              refine ⟨?_, ?_⟩
              · rw [head?_take hpos, hhead]
              · refine WF_splitNode hchild hpos hs2 ?_
                intro hne
                by_contra hge
                have hlen : (b :: bs).length ≤ mismatchAux (b :: bs) ℓ := by omega
                have := mismatchAux_le_left (b :: bs) ℓ
                have heq : mismatchAux (b :: bs) ℓ = (b :: bs).length := by omega
                exact hne (by rw [heq]; simp)
          refine WF.mk _ _ _ (sortedE_updE hWF.sorted _ _) ?_ ?_
          · intro b' ℓ' c' h
            rcases eq_or_ne b' b with hbb | hbb
            · subst hbb
              rw [lookupE_updE_self hb] at h
              simp only [Option.some.injEq] at h
              have h1 := hu.1
              rw [h] at h1
              exact h1
            · rw [lookupE_updE_ne _ _ hbb] at h
              exact hWF.head _ _ _ h
          · intro b' ℓ' c' h
            rcases eq_or_ne b' b with hbb | hbb
            · subst hbb
              rw [lookupE_updE_self hb] at h
              simp only [Option.some.injEq] at h
              have h2 := hu.2
              rw [h] at h2
              exact h2
            · rw [lookupE_updE_ne _ _ hbb] at h
              exact hWF.child _ _ _ h

theorem insertGo_WF {n : Node} (hWF : WF n) (key d : List Nat) : WF (insertGo n key d) :=
  insertGo_WF_aux (nodeCount n) n (le_refl _) hWF key d

/-! ### Observations preserved and created by insertion -/

theorem getNode_cons_congr {es es' : Edges} {x : Nat} (h : lookupE es' x = lookupE es x)
    (lf lf' : Bool) (dt dt' : List Nat) (xs : List Nat) :
    getNode (.mk lf' dt' es') (x :: xs) = getNode (.mk lf dt es) (x :: xs) := by
  cases hx : lookupE es x with
  | none =>
    rw [getNode_cons_none hx, getNode_cons_none (h.trans hx)]
  | some v =>
    obtain ⟨ℓ, c⟩ := v
    rw [getNode_cons_some hx, getNode_cons_some (h.trans hx)]

theorem stored_cons_congr {es es' : Edges} {x : Nat} (h : lookupE es' x = lookupE es x)
    (lf : Bool) (dt : List Nat) (xs : List Nat) :
    stored (.mk lf dt es') (x :: xs) = stored (.mk lf dt es) (x :: xs) := by
  unfold stored
  rw [getNode_cons_congr h lf lf dt dt]

theorem stored_leaf_nil (d : List Nat) : stored (.mk true d .nilMap) [] = some d := by
  rw [stored_nil_key]; rfl

theorem stored_leaf_cons (d : List Nat) (y : Nat) (ys : List Nat) :
    stored (.mk true d .nilMap) (y :: ys) = none := by
  have hb : lookupE .nilMap y = none := rfl
  have hk : (y :: ys).head? = some y := rfl
  exact stored_no_edge hb hk true d

theorem stored_markLeaf_nil (c : Node) (d : List Nat) : stored (markLeaf c d) [] = some d := by
  cases c
  simp only [markLeaf]
  rw [stored_nil_key]
  rfl

theorem getNode_markLeaf_cons (c : Node) (d : List Nat) (x : Nat) (xs : List Nat) :
    getNode (markLeaf c d) (x :: xs) = getNode c (x :: xs) := by
  cases c; rfl

theorem stored_markLeaf_cons (c : Node) (d : List Nat) (x : Nat) (xs : List Nat) :
    stored (markLeaf c d) (x :: xs) = stored c (x :: xs) := by
  unfold stored
  rw [getNode_markLeaf_cons]

/-! ### The three observations of a split node -/

theorem splitNode_stored_restKey {key ℓ : List Nat} (c : Node) (d : List Nat)
    (hs2 : mismatchAux key ℓ < ℓ.length) (hks : mismatchAux key ℓ ≤ key.length)
    (hne : key.drop (mismatchAux key ℓ) ≠ [] → mismatchAux key ℓ < key.length) :
    stored (splitNode ℓ (mismatchAux key ℓ) c (key.drop (mismatchAux key ℓ)) d)
      (key.drop (mismatchAux key ℓ)) = some d := by
  set s := mismatchAux key ℓ with hsdef
  cases hrk : key.drop s with
  | nil =>
    simp only [splitNode]
    rw [stored_nil_key]
    rfl
  | cons r rs =>
    have hks' : s < key.length := hne (by rw [hrk]; simp)
    simp only [splitNode]
    have hlook : lookupE
        (addE (.cons ((ℓ.drop s).headD 0) (ℓ.drop s) c .nil) r (r :: rs) (.mk true d .nilMap)) r =
        some (r :: rs, .mk true d .nilMap) := lookupE_addE_self _ _ _ _
    have := stored_through hlook rfl false [] []
    rw [List.append_nil] at this
    rw [this, stored_leaf_nil]

theorem splitNode_lookup_tail (key ℓ : List Nat) (c : Node) (d : List Nat)
    (hks : key.drop (mismatchAux key ℓ) ≠ [] → mismatchAux key ℓ < key.length)
    (hs2 : mismatchAux key ℓ < ℓ.length) :
    lookupE (splitNode ℓ (mismatchAux key ℓ) c (key.drop (mismatchAux key ℓ)) d).edges
        ((ℓ.drop (mismatchAux key ℓ)).headD 0) =
      some (ℓ.drop (mismatchAux key ℓ), c) := by
  set s := mismatchAux key ℓ with hsdef
  cases hrk : key.drop s with
  | nil =>
    simp [splitNode, Node.edges, lookupE]
  | cons r rs =>
    have hks' : s < key.length := hks (by rw [hrk]; simp)
    have hrne : (ℓ.drop s).headD 0 ≠ r := by
      have := split_heads_ne hks' hs2
      rw [hrk] at this
      simpa using this.symm
    simp only [splitNode, Node.edges]
    rw [lookupE_addE_ne _ _ _ hrne]
    simp [lookupE]

theorem splitNode_stored_tail {key ℓ : List Nat} (c : Node) (d : List Nat)
    (hks : key.drop (mismatchAux key ℓ) ≠ [] → mismatchAux key ℓ < key.length)
    (hs2 : mismatchAux key ℓ < ℓ.length) (s4 : List Nat) :
    stored (splitNode ℓ (mismatchAux key ℓ) c (key.drop (mismatchAux key ℓ)) d)
      (ℓ.drop (mismatchAux key ℓ) ++ s4) = stored c s4 := by
  set s := mismatchAux key ℓ with hsdef
  have hlook := splitNode_lookup_tail key ℓ c d hks hs2
  have hhd : (ℓ.drop s).head? = some ((ℓ.drop s).headD 0) := head?_headD (drop_ne_nil hs2)
  cases hN : splitNode ℓ s c (key.drop s) d with
  | mk lfN dtN esN =>
    rw [hN] at hlook
    simp only [Node.edges] at hlook
    exact stored_through hlook hhd _ _ _

theorem splitNode_stored_other {key ℓ : List Nat} (c : Node) (d : List Nat)
    (hks : key.drop (mismatchAux key ℓ) ≠ [] → mismatchAux key ℓ < key.length)
    (hs2 : mismatchAux key ℓ < ℓ.length) (s2 : List Nat)
    (hne1 : s2 ≠ key.drop (mismatchAux key ℓ))
    (hne2 : ∀ s4, s2 ≠ ℓ.drop (mismatchAux key ℓ) ++ s4) :
    stored (splitNode ℓ (mismatchAux key ℓ) c (key.drop (mismatchAux key ℓ)) d) s2 = none := by
  set s := mismatchAux key ℓ with hsdef
  have hhd : (ℓ.drop s).head? = some ((ℓ.drop s).headD 0) := head?_headD (drop_ne_nil hs2)
  cases hs2' : s2 with
  | nil =>
    cases hrk : key.drop s with
    | nil => rw [hrk] at hne1; exact absurd hs2' hne1
    | cons r rs =>
      simp only [splitNode]
      rw [stored_nil_key]
      rfl
  | cons y ys =>
    subst hs2'
    by_cases hy : y = (ℓ.drop s).headD 0
    · subst hy
      have hlook := splitNode_lookup_tail key ℓ c d hks hs2
      cases hN : splitNode ℓ s c (key.drop s) d with
      | mk lfN dtN esN =>
        rw [hN] at hlook
        simp only [Node.edges] at hlook
        refine stored_not_through hlook ?_ ?_ _ _
        · rfl
        · exact hne2
    · cases hrk : key.drop s with
      | nil =>
        simp only [splitNode]
        have hb : lookupE (Edges.cons ((ℓ.drop s).headD 0) (ℓ.drop s) c Edges.nil) y = none := by
          simp only [lookupE]
          rw [if_neg hy]
        have hk : (y :: ys).head? = some y := rfl
        exact stored_no_edge hb hk true d
      | cons r rs =>
        rw [hrk] at hne1
        simp only [splitNode]
        by_cases hyr : y = r
        · subst hyr
          have hlook : lookupE
              (addE (.cons ((ℓ.drop s).headD 0) (ℓ.drop s) c .nil) y (y :: rs)
                (.mk true d .nilMap)) y =
              some (y :: rs, .mk true d .nilMap) := lookupE_addE_self _ _ _ _
          by_cases hpre : ∃ s4, y :: ys = (y :: rs) ++ s4
          · obtain ⟨s4, hs4⟩ := hpre
            have hs4ne : s4 ≠ [] := by
              rintro rfl
              rw [List.append_nil] at hs4
              exact hne1 hs4
            rw [hs4]
            have hth := stored_through hlook rfl false [] s4
            rw [hth]
            cases s4 with
            | nil => exact absurd rfl hs4ne
            | cons z zs => exact stored_leaf_cons d z zs
          · refine stored_not_through hlook ?_ ?_ _ _
            · rfl
            · intro s4 hc
              exact hpre ⟨s4, hc⟩
        · have hb : lookupE (addE (Edges.cons ((ℓ.drop s).headD 0) (ℓ.drop s) c Edges.nil)
              r (r :: rs) (Node.mk true d Edges.nilMap)) y = none := by
            rw [lookupE_addE_ne _ _ _ hyr]
            simp only [lookupE]
            rw [if_neg hy]
          have hk : (y :: ys).head? = some y := rfl
          exact stored_no_edge hb hk false []

/-- Insertion stores the key with its data and leaves every other key
unchanged. -/
theorem insertGo_stored_aux : ∀ N n, nodeCount n ≤ N → WF n → ∀ key d, key ≠ [] →
    stored (insertGo n key d) key = some d ∧
    (∀ k2, k2 ≠ key → stored (insertGo n key d) k2 = stored n k2) := by
  intro N
  induction N with
  | zero =>
    intro n hle
    have := nodeCount_pos n
    omega
  | succ N ih =>
    intro n hle hWF key d hkey
    cases n with
    | mk lf dt es =>
    cases key with
    | nil => exact absurd rfl hkey
    | cons b bs =>
    rw [insertGo_cons]
    cases hb : lookupE es b with
    | none =>
      rw [insertE_absent hb]
      constructor
      · have hlook := lookupE_addE_self es b (b :: bs) (.mk true d .nilMap)
        have hth := stored_through hlook rfl lf dt []
        rw [List.append_nil] at hth
        rw [hth, stored_leaf_nil]
      · intro k2 hk2
        cases k2 with
        | nil => rw [stored_nil_key, stored_nil_key]
        | cons x xs =>
          rcases eq_or_ne x b with hxb | hx
          · subst hxb
            by_cases hpre : ∃ s2, (x :: xs) = (x :: bs) ++ s2
            · obtain ⟨s2, hs2⟩ := hpre
              have hs2ne : s2 ≠ [] := by
                rintro rfl
                rw [List.append_nil] at hs2
                exact hk2 hs2
              rw [hs2]
              have hlook := lookupE_addE_self es x (x :: bs) (.mk true d .nilMap)
              have hth := stored_through hlook rfl lf dt s2
              rw [hth]
              cases s2 with
              | nil => exact absurd rfl hs2ne
              | cons z zs =>
                rw [stored_leaf_cons]
                have hold : stored (Node.mk lf dt es) ((x :: bs) ++ z :: zs) = none :=
                  stored_no_edge hb (rfl : ((x :: bs) ++ z :: zs).head? = some x) lf dt
                rw [hold]
            · have hnew : stored
                  (Node.mk lf dt (addE es x (x :: bs) (.mk true d .nilMap))) (x :: xs) = none := by
                refine stored_not_through (lookupE_addE_self es x (x :: bs) _)
                  (rfl : (x :: xs).head? = some x) ?_ lf dt
                intro s2 hs2
                exact hpre ⟨s2, hs2⟩
              have hold : stored (Node.mk lf dt es) (x :: xs) = none :=
                stored_no_edge hb (rfl : (x :: xs).head? = some x) lf dt
              rw [hnew, hold]
          · exact stored_cons_congr (lookupE_addE_ne es _ _ hx) lf dt xs
    | some v =>
      obtain ⟨ℓ, c⟩ := v
      have hchild : WF c := hWF.child _ _ _ hb
      have hhead : ℓ.head? = some b := hWF.head _ _ _ hb
      have hcnt := lookupE_nodeCount_lt hb lf dt
      rw [insertE_found hWF.sorted hb, insertUpd_eq]
      have hpos : 1 ≤ mismatchAux (b :: bs) ℓ := mismatch_head_pos rfl hhead
      have hsleℓ : mismatchAux (b :: bs) ℓ ≤ ℓ.length := mismatchAux_le_right _ _
      have hslek : mismatchAux (b :: bs) ℓ ≤ (b :: bs).length := mismatchAux_le_left _ _
      by_cases hif : mismatchAux (b :: bs) ℓ = ℓ.length
      · obtain ⟨t, ht⟩ : ∃ t, (b :: bs) = ℓ ++ t := (mismatchAux_eq_len_iff _ _).1 hif
        by_cases hlen : (b :: bs).length = ℓ.length
        · rw [if_pos hif, if_pos hlen]
          have htnil : t = [] := by
            have hlt := congrArg List.length ht
            rw [List.length_append] at hlt
            have : t.length = 0 := by omega
            exact List.length_eq_zero.mp this
          subst htnil
          rw [List.append_nil] at ht
          constructor
          · have hth := stored_through (lookupE_updE_self hb (ℓ, markLeaf c d)) hhead lf dt []
            rw [List.append_nil] at hth
            rw [ht, hth, stored_markLeaf_nil]
          · intro k2 hk2
            cases k2 with
            | nil => rw [stored_nil_key, stored_nil_key]
            | cons x xs =>
              rcases eq_or_ne x b with hxb | hx
              · subst hxb
                by_cases hpre : ∃ s2, (x :: xs) = ℓ ++ s2
                · obtain ⟨s2, hs2⟩ := hpre
                  have hs2ne : s2 ≠ [] := by
                    rintro rfl
                    rw [List.append_nil] at hs2
                    exact hk2 (by rw [hs2, ← ht])
                  rw [hs2]
                  rw [stored_through (lookupE_updE_self hb (ℓ, markLeaf c d)) hhead lf dt s2]
                  rw [stored_through hb hhead lf dt s2]
                  cases s2 with
                  | nil => exact absurd rfl hs2ne
                  | cons z zs => exact stored_markLeaf_cons c d z zs
                · have h1 : stored
                      (Node.mk lf dt (updE es x (ℓ, markLeaf c d))) (x :: xs) = none := by
                    refine stored_not_through (lookupE_updE_self hb _)
                      (rfl : (x :: xs).head? = some x) ?_ lf dt
                    intro s2 h
                    exact hpre ⟨s2, h⟩
                  have h2 : stored (Node.mk lf dt es) (x :: xs) = none := by
                    refine stored_not_through hb (rfl : (x :: xs).head? = some x) ?_ lf dt
                    intro s2 h
                    exact hpre ⟨s2, h⟩
                  rw [h1, h2]
              · exact stored_cons_congr (lookupE_updE_ne es _ hx) lf dt xs
        · rw [if_pos hif, if_neg hlen]
          have htne : t ≠ [] := by
            rintro rfl
            rw [List.append_nil] at ht
            rw [ht] at hlen
            exact hlen rfl
          have hdrop : (b :: bs).drop (mismatchAux (b :: bs) ℓ) = t := by
            rw [ht, mismatchAux_append]
            exact List.drop_left ℓ t
          rw [hdrop]
          obtain ⟨hIH1, hIH2⟩ := ih c (by omega) hchild t d htne
          constructor
          · have hth := stored_through (lookupE_updE_self hb (ℓ, insertGo c t d)) hhead lf dt t
            rw [ht, hth]
            exact hIH1
          · intro k2 hk2
            cases k2 with
            | nil => rw [stored_nil_key, stored_nil_key]
            | cons x xs =>
              rcases eq_or_ne x b with hxb | hx
              · subst hxb
                by_cases hpre : ∃ s2, (x :: xs) = ℓ ++ s2
                · obtain ⟨s2, hs2⟩ := hpre
                  have hs2t : s2 ≠ t := by
                    rintro rfl
                    rw [← ht] at hs2
                    exact hk2 hs2
                  rw [hs2]
                  rw [stored_through (lookupE_updE_self hb (ℓ, insertGo c t d)) hhead lf dt s2]
                  rw [stored_through hb hhead lf dt s2]
                  exact hIH2 s2 hs2t
                · have h1 : stored
                      (Node.mk lf dt (updE es x (ℓ, insertGo c t d))) (x :: xs) = none := by
                    refine stored_not_through (lookupE_updE_self hb _)
                      (rfl : (x :: xs).head? = some x) ?_ lf dt
                    intro s2 h
                    exact hpre ⟨s2, h⟩
                  have h2 : stored (Node.mk lf dt es) (x :: xs) = none := by
                    refine stored_not_through hb (rfl : (x :: xs).head? = some x) ?_ lf dt
                    intro s2 h
                    exact hpre ⟨s2, h⟩
                  rw [h1, h2]
              · exact stored_cons_congr (lookupE_updE_ne es _ hx) lf dt xs
      · rw [if_neg hif]
        have hsℓ : mismatchAux (b :: bs) ℓ < ℓ.length := by omega
        have hksfun : (b :: bs).drop (mismatchAux (b :: bs) ℓ) ≠ [] →
            mismatchAux (b :: bs) ℓ < (b :: bs).length := by
          intro hne
          rcases lt_or_eq_of_le hslek with h | h
          · exact h
          · exfalso
            apply hne
            rw [h, List.drop_length]
        have hkeydec : (b :: bs) =
            ℓ.take (mismatchAux (b :: bs) ℓ) ++ (b :: bs).drop (mismatchAux (b :: bs) ℓ) := by
          conv_lhs => rw [← List.take_append_drop (mismatchAux (b :: bs) ℓ) (b :: bs)]
          rw [mismatchAux_take_eq]
        have hPhead : (ℓ.take (mismatchAux (b :: bs) ℓ)).head? = some b := by
          rw [head?_take hpos, hhead]
        have hlookP := lookupE_updE_self hb
          (ℓ.take (mismatchAux (b :: bs) ℓ),
            splitNode ℓ (mismatchAux (b :: bs) ℓ) c ((b :: bs).drop (mismatchAux (b :: bs) ℓ)) d)
        constructor
        · have hth := stored_through hlookP hPhead lf dt ((b :: bs).drop (mismatchAux (b :: bs) ℓ))
          have hrk := splitNode_stored_restKey c d hsℓ hslek hksfun
          have hcombined := hth.trans hrk
          rw [← hkeydec] at hcombined
          exact hcombined
        · intro k2 hk2
          cases k2 with
          | nil => rw [stored_nil_key, stored_nil_key]
          | cons x xs =>
            rcases eq_or_ne x b with hxb | hx
            · subst hxb
              by_cases hpre : ∃ s2, (x :: xs) = ℓ.take (mismatchAux (x :: bs) ℓ) ++ s2
              · obtain ⟨s2, hs2⟩ := hpre
                have hs2ne : s2 ≠ (x :: bs).drop (mismatchAux (x :: bs) ℓ) := by
                  rintro rfl
                  apply hk2
                  rw [hs2, ← hkeydec]
                by_cases htail : ∃ s4, s2 = ℓ.drop (mismatchAux (x :: bs) ℓ) ++ s4
                · obtain ⟨s4, hs4⟩ := htail
                  have hnew : stored (Node.mk lf dt (updE es x
                      (ℓ.take (mismatchAux (x :: bs) ℓ),
                        splitNode ℓ (mismatchAux (x :: bs) ℓ) c
                          ((x :: bs).drop (mismatchAux (x :: bs) ℓ)) d))) (x :: xs) =
                      stored c s4 := by
                    rw [hs2, stored_through hlookP hPhead lf dt s2, hs4]
                    exact splitNode_stored_tail c d hksfun hsℓ s4
                  have hold : stored (Node.mk lf dt es) (x :: xs) = stored c s4 := by
                    have hk2eq : (x :: xs) = ℓ ++ s4 := by
                      rw [hs2, hs4, ← List.append_assoc, List.take_append_drop]
                    rw [hk2eq, stored_through hb hhead lf dt s4]
                  rw [hnew, hold]
                · have hnew : stored (Node.mk lf dt (updE es x
                      (ℓ.take (mismatchAux (x :: bs) ℓ),
                        splitNode ℓ (mismatchAux (x :: bs) ℓ) c
                          ((x :: bs).drop (mismatchAux (x :: bs) ℓ)) d))) (x :: xs) = none := by
                    rw [hs2, stored_through hlookP hPhead lf dt s2]
                    exact splitNode_stored_other c d hksfun hsℓ s2 hs2ne (fun s4 h => htail ⟨s4, h⟩)
                  have hold : stored (Node.mk lf dt es) (x :: xs) = none := by
                    refine stored_not_through hb (rfl : (x :: xs).head? = some x) ?_ lf dt
                    intro s3 hs3
                    apply htail
                    refine ⟨s3, ?_⟩
                    have happ : ℓ.take (mismatchAux (x :: bs) ℓ) ++ s2 =
                        ℓ.take (mismatchAux (x :: bs) ℓ) ++
                          (ℓ.drop (mismatchAux (x :: bs) ℓ) ++ s3) := by
                      rw [← hs2, hs3, ← List.append_assoc, List.take_append_drop]
                    exact List.append_cancel_left happ
                  rw [hnew, hold]
              · have hnew : stored (Node.mk lf dt (updE es x
                    (ℓ.take (mismatchAux (x :: bs) ℓ),
                      splitNode ℓ (mismatchAux (x :: bs) ℓ) c
                        ((x :: bs).drop (mismatchAux (x :: bs) ℓ)) d))) (x :: xs) = none := by
                  refine stored_not_through hlookP (rfl : (x :: xs).head? = some x) ?_ lf dt
                  intro s2 h
                  exact hpre ⟨s2, h⟩
                have hold : stored (Node.mk lf dt es) (x :: xs) = none := by
                  refine stored_not_through hb (rfl : (x :: xs).head? = some x) ?_ lf dt
                  intro s3 hs3
                  apply hpre
                  refine ⟨ℓ.drop (mismatchAux (x :: bs) ℓ) ++ s3, ?_⟩
                  rw [hs3, ← List.append_assoc, List.take_append_drop]
                rw [hnew, hold]
            · exact stored_cons_congr (lookupE_updE_ne es _ hx) lf dt xs

/-! ### Characterising one deletion step -/

theorem stored_cons_ext (lf1 lf2 : Bool) (dt1 dt2 : List Nat) (es : Edges)
    (x : Nat) (xs : List Nat) :
    stored (.mk lf1 dt1 es) (x :: xs) = stored (.mk lf2 dt2 es) (x :: xs) := by
  unfold stored
  rw [getNode_cons, getNode_cons]

theorem deleteGo_nil_key (isRoot : Bool) (lf : Bool) (dt : List Nat) (es : Edges) :
    deleteGo isRoot (.mk lf dt es) [] =
      if es = .nilMap ∧ isRoot = false then some none
      else some (some (.mk false dt es)) := rfl

theorem deleteGo_cons (isRoot : Bool) (lf : Bool) (dt : List Nat) (es : Edges)
    (b : Nat) (bs : List Nat) :
    deleteGo isRoot (.mk lf dt es) (b :: bs) =
      match deleteE es b (b :: bs) with
      | none => none
      | some (es', removed) =>
          if removed = true ∧ lenE es' = 0 ∧ lf = false ∧ isRoot = false then some none
          else some (some (.mk lf dt es')) := rfl

theorem deleteE_absent {es : Edges} {b : Nat} (hb : lookupE es b = none) (key : List Nat) :
    deleteE es b key = some (es, false) := by
  induction es using edgesInd with
  | nilMap => rfl
  | nil => rfl
  | cons b2 ℓ2 c2 rest ih =>
    simp only [lookupE] at hb
    rcases eq_or_ne b b2 with hbb | hbb
    · simp [hbb] at hb
    · simp only [if_neg hbb] at hb
      simp only [deleteE, if_neg hbb]
      rw [ih hb]

theorem deleteE_found {es : Edges} {b : Nat} {ℓ : List Nat} {c : Node}
    (hb : lookupE es b = some (ℓ, c)) (key : List Nat) :
    deleteE es b key =
      if key.length < ℓ.length then none
      else
        match deleteGo false c (key.drop ℓ.length) with
        | none => none
        | some none => some (removeE es b, true)
        | some (some c') => some (updE es b (deleteMerge ℓ c'), false) := by
  induction es using edgesInd with
  | nilMap => cases hb
  | nil => cases hb
  | cons b2 ℓ2 c2 rest ih =>
    simp only [lookupE] at hb
    rcases eq_or_ne b b2 with hbb | hbb
    · subst hbb
      simp only [if_pos rfl, Option.some.injEq, Prod.mk.injEq] at hb
      obtain ⟨rfl, rfl⟩ := hb
      simp only [deleteE, if_pos rfl]
      by_cases hlt : key.length < ℓ.length
      · simp [hlt]
      · simp only [if_neg hlt]
        cases hd : deleteGo false c (key.drop ℓ.length) with
        | none => rfl
        | some o =>
          cases o with
          | none => simp [removeE]
          | some c' => simp [updE]
    · simp only [if_neg hbb] at hb
      simp only [deleteE, if_neg hbb]
      rw [ih hb]
      by_cases hlt : key.length < ℓ.length
      · simp [hlt]
      · simp only [if_neg hlt]
        cases hd : deleteGo false c (key.drop ℓ.length) with
        | none => rfl
        | some o =>
          cases o with
          | none => simp [removeE, hbb]
          | some c' => simp [updE, hbb]

theorem lookupE_removeE_self {es : Edges} (hs : sortedE es) (b : Nat) :
    lookupE (removeE es b) b = none := by
  induction es using edgesInd with
  | nilMap => rfl
  | nil => rfl
  | cons b2 ℓ2 c2 rest ih =>
    rcases eq_or_ne b b2 with hbb | hbb
    · subst hbb
      have hre : removeE (Edges.cons b ℓ2 c2 rest) b = rest := by simp [removeE]
      rw [hre, lookupE_none_iff]
      intro hmem
      have := sortedE_head_lt hs hmem
      omega
    · have hre : removeE (Edges.cons b2 ℓ2 c2 rest) b = Edges.cons b2 ℓ2 c2 (removeE rest b) := by
        simp [removeE, hbb]
      rw [hre]
      simp only [lookupE, if_neg hbb]
      exact ih (sortedE_rest hs)

theorem head?_append_of_some {ℓ : List Nat} {b : Nat} (h : ℓ.head? = some b) (ℓ2 : List Nat) :
    (ℓ ++ ℓ2).head? = some b := by
  cases ℓ with
  | nil => cases h
  | cons x xs => simpa using h

theorem firstE_lookup {es : Edges} {b2 : Nat} {ℓ2 : List Nat} {g : Node}
    (h : firstE es = some (b2, ℓ2, g)) : lookupE es b2 = some (ℓ2, g) := by
  cases es with
  | nilMap => cases h
  | nil => cases h
  | cons b ℓ c rest =>
    simp only [firstE, Option.some.injEq, Prod.mk.injEq] at h
    obtain ⟨rfl, rfl, rfl⟩ := h
    simp [lookupE]

theorem lenE_eq_one {es : Edges} (h : lenE es = 1) :
    ∃ b2 ℓ2 g base, es = .cons b2 ℓ2 g base ∧ lenE base = 0 := by
  cases es with
  | nilMap => simp [lenE] at h
  | nil => simp [lenE] at h
  | cons b ℓ c rest =>
    refine ⟨b, ℓ, c, rest, rfl, ?_⟩
    simp only [lenE] at h
    omega

/-- A removed edge map that is empty means the key was the only entry. -/
theorem removeE_empty_other {es : Edges} {b : Nat} {w : List Nat × Node}
    (hb : lookupE es b = some w) (hlen : lenE (removeE es b) = 0) :
    ∀ x, x ≠ b → lookupE es x = none := by
  intro x hx
  cases es with
  | nilMap => rfl
  | nil => rfl
  | cons b2 ℓ2 c2 rest =>
    rcases eq_or_ne b b2 with hbb | hbb
    · subst hbb
      have hre : removeE (Edges.cons b ℓ2 c2 rest) b = rest := by simp [removeE]
      rw [hre, lenE_eq_zero_iff] at hlen
      simp only [lookupE, if_neg hx]
      rcases hlen with h | h <;> rw [h] <;> rfl
    · have hre : removeE (Edges.cons b2 ℓ2 c2 rest) b = Edges.cons b2 ℓ2 c2 (removeE rest b) := by
        simp [removeE, hbb]
      rw [hre] at hlen
      simp [lenE] at hlen

/-- Splicing out a non-leaf child with exactly one edge does not change
any stored key: the merged edge stores the concatenated label. -/
theorem stored_merge_eq {es : Edges} {b : Nat} {ℓ : List Nat} {c' : Node} {w : List Nat × Node}
    (hb : lookupE es b = some w) (hhead : ℓ.head? = some b) (hWFc : WF c')
    (lf : Bool) (dt : List Nat) :
    ∀ k2, stored (.mk lf dt (updE es b (deleteMerge ℓ c'))) k2 =
      stored (.mk lf dt (updE es b (ℓ, c'))) k2 := by
  intro k2
  unfold deleteMerge
  by_cases hcond : lenE c'.edges = 1 ∧ c'.isLeaf = false
  · rw [if_pos hcond]
    obtain ⟨b2, ℓ2, g, base, hes2, hbase⟩ := lenE_eq_one hcond.1
    cases c' with
    | mk lf2 dt2 es2 =>
      have hlf2 : lf2 = false := by simpa [Node.isLeaf] using hcond.2
      subst hlf2
      simp only [Node.edges] at hes2
      subst hes2
      simp only [Node.edges, firstE]
      have hl2look : lookupE (Edges.cons b2 ℓ2 g base) b2 = some (ℓ2, g) := by simp [lookupE]
      have hl2head : ℓ2.head? = some b2 := hWFc.head b2 ℓ2 g hl2look
      have hWFg : WF g := hWFc.child b2 ℓ2 g hl2look
      cases k2 with
      | nil => rw [stored_nil_key, stored_nil_key]
      | cons x xs =>
        rcases eq_or_ne x b with hxb | hx
        · subst hxb
          have hlookM := lookupE_updE_self hb (ℓ ++ ℓ2, g)
          have hlookU := lookupE_updE_self hb (ℓ, Node.mk false dt2 (Edges.cons b2 ℓ2 g base))
          have hheadM : (ℓ ++ ℓ2).head? = some x := head?_append_of_some hhead ℓ2
          by_cases h2 : ∃ s4, (x :: xs) = (ℓ ++ ℓ2) ++ s4
          · obtain ⟨s4, hs4⟩ := h2
            have hr1 : stored (Node.mk lf dt (updE es x (ℓ ++ ℓ2, g))) (x :: xs) =
                stored g s4 := by
              rw [hs4]
              exact stored_through hlookM hheadM lf dt s4
            have hr2 : stored (Node.mk lf dt
                (updE es x (ℓ, Node.mk false dt2 (Edges.cons b2 ℓ2 g base)))) (x :: xs) =
                stored g s4 := by
              have hs4' : (x :: xs) = ℓ ++ (ℓ2 ++ s4) := by rw [hs4, List.append_assoc]
              rw [hs4', stored_through hlookU hhead lf dt (ℓ2 ++ s4)]
              exact stored_through hl2look hl2head false dt2 s4
            rw [hr1, hr2]
          · have hr1 : stored (Node.mk lf dt (updE es x (ℓ ++ ℓ2, g))) (x :: xs) = none :=
              stored_not_through hlookM (rfl : (x :: xs).head? = some x)
                (fun s4 h => h2 ⟨s4, h⟩) lf dt
            by_cases h3 : ∃ s3, (x :: xs) = ℓ ++ s3
            · obtain ⟨s3, hs3⟩ := h3
              have hr2 : stored (Node.mk lf dt
                  (updE es x (ℓ, Node.mk false dt2 (Edges.cons b2 ℓ2 g base)))) (x :: xs) =
                  stored (Node.mk false dt2 (Edges.cons b2 ℓ2 g base)) s3 := by
                rw [hs3]
                exact stored_through hlookU hhead lf dt s3
              have hnone : stored (Node.mk false dt2 (Edges.cons b2 ℓ2 g base)) s3 = none := by
                cases s3 with
                | nil => rw [stored_nil_key]; rfl
                | cons y ys =>
                  rcases eq_or_ne y b2 with hyb | hyb
                  · subst hyb
                    refine stored_not_through hl2look (rfl : (y :: ys).head? = some y) ?_ false dt2
                    intro s4 hs4
                    apply h2
                    exact ⟨s4, by rw [hs3, hs4, List.append_assoc]⟩
                  · have hbn : lookupE (Edges.cons b2 ℓ2 g base) y = none := by
                      simp only [lookupE, if_neg hyb]
                      rw [lenE_eq_zero_iff] at hbase
                      rcases hbase with h | h <;> rw [h] <;> rfl
                    exact stored_no_edge hbn (rfl : (y :: ys).head? = some y) false dt2
              rw [hr1, hr2, hnone]
            · have hr2 : stored (Node.mk lf dt
                  (updE es x (ℓ, Node.mk false dt2 (Edges.cons b2 ℓ2 g base)))) (x :: xs) =
                  none :=
                stored_not_through hlookU (rfl : (x :: xs).head? = some x)
                  (fun s3 h => h3 ⟨s3, h⟩) lf dt
              rw [hr1, hr2]
        · have e1 := stored_cons_congr (lookupE_updE_ne es (ℓ ++ ℓ2, g) hx) lf dt xs
          have e2 := stored_cons_congr
            (lookupE_updE_ne es (ℓ, Node.mk false dt2 (Edges.cons b2 ℓ2 g base)) hx) lf dt xs
          rw [e1, e2]
  · rw [if_neg hcond]

/-- Deletion preserves the invariant whenever it returns a node. -/
theorem deleteGo_WF_aux : ∀ N n, nodeCount n ≤ N → WF n → ∀ isRoot key n',
    deleteGo isRoot n key = some (some n') → WF n' := by
  intro N
  induction N with
  | zero =>
    intro n hle
    have := nodeCount_pos n
    omega
  | succ N ih =>
    intro n hle hWF isRoot key n' hdel
    cases n with
    | mk lf dt es =>
    cases key with
    | nil =>
      rw [deleteGo_nil_key] at hdel
      split_ifs at hdel
      · simp at hdel
      · simp only [Option.some.injEq] at hdel
        subst hdel
        exact WF.mk _ _ _ hWF.sorted hWF.head hWF.child
    | cons b bs =>
      rw [deleteGo_cons] at hdel
      cases hb : lookupE es b with
      | none =>
        rw [deleteE_absent hb] at hdel
        simp at hdel
        subst hdel
        exact hWF
      | some v =>
        obtain ⟨ℓ, c⟩ := v
        have hcnt := lookupE_nodeCount_lt hb lf dt
        rw [deleteE_found hb] at hdel
        by_cases hlt : (b :: bs).length < ℓ.length
        · rw [if_pos hlt] at hdel
          cases hdel
        · rw [if_neg hlt] at hdel
          cases hd : deleteGo false c ((b :: bs).drop ℓ.length) with
          | none =>
            rw [hd] at hdel
            cases hdel
          | some o =>
            rw [hd] at hdel
            cases o with
            | none =>
              simp only [Option.some.injEq, true_and] at hdel
              split_ifs at hdel
              · simp at hdel
              · simp only [Option.some.injEq] at hdel
                subst hdel
                refine WF.mk _ _ _ (sortedE_removeE hWF.sorted b) ?_ ?_
                · intro b'' ℓ'' c'' h
                  rcases eq_or_ne b'' b with hbb | hbb
                  · subst hbb
                    rw [lookupE_removeE_self hWF.sorted] at h
                    cases h
                  · rw [lookupE_removeE_ne es hbb] at h
                    exact hWF.head _ _ _ h
                · intro b'' ℓ'' c'' h
                  rcases eq_or_ne b'' b with hbb | hbb
                  · subst hbb
                    rw [lookupE_removeE_self hWF.sorted] at h
                    cases h
                  · rw [lookupE_removeE_ne es hbb] at h
                    exact hWF.child _ _ _ h
            | some c' =>
              have hWFc' : WF c' := ih c (by omega) (hWF.child _ _ _ hb) false _ c' hd
              simp at hdel
              subst hdel
              refine WF.mk _ _ _ (sortedE_updE hWF.sorted _ _) ?_ ?_
              · intro b'' ℓ'' c'' h
                rcases eq_or_ne b'' b with hbb | hbb
                · subst hbb
                  rw [lookupE_updE_self hb] at h
                  simp only [Option.some.injEq] at h
                  have hgoal : (deleteMerge ℓ c').1.head? = some b'' := by
                    unfold deleteMerge
                    split_ifs with hcond
                    · cases hfst : firstE c'.edges with
                      | none => exact hWF.head _ _ _ hb
                      | some t =>
                        obtain ⟨b2, ℓ2, g⟩ := t
                        exact head?_append_of_some (hWF.head _ _ _ hb) ℓ2
                    · exact hWF.head _ _ _ hb
                  rw [h] at hgoal
                  exact hgoal
                · rw [lookupE_updE_ne es _ hbb] at h
                  exact hWF.head _ _ _ h
              · intro b'' ℓ'' c'' h
                rcases eq_or_ne b'' b with hbb | hbb
                · subst hbb
                  rw [lookupE_updE_self hb] at h
                  simp only [Option.some.injEq] at h
                  have hgoal : WF (deleteMerge ℓ c').2 := by
                    unfold deleteMerge
                    split_ifs with hcond
                    · cases hfst : firstE c'.edges with
                      | none => exact hWFc'
                      | some t =>
                        obtain ⟨b2, ℓ2, g⟩ := t
                        cases c' with
                        | mk lf2 dt2 es2 =>
                          simp only [Node.edges] at hfst
                          exact hWFc'.child b2 ℓ2 g (firstE_lookup hfst)
                    · exact hWFc'
                  rw [h] at hgoal
                  exact hgoal
                · rw [lookupE_updE_ne es _ hbb] at h
                  exact hWF.child _ _ _ h

theorem deleteGo_WF {n : Node} (hWF : WF n) {isRoot : Bool} {key : List Nat} {n' : Node}
    (h : deleteGo isRoot n key = some (some n')) : WF n' :=
  deleteGo_WF_aux (nodeCount n) n (le_refl _) hWF isRoot key n' h

/-- Deleting a present key removes exactly that key: either the whole
subtree goes away, in which case the key was the only one it stored, or
the returned node no longer stores the key and stores every other key
unchanged. -/
theorem deleteGo_spec_aux : ∀ N n, nodeCount n ≤ N → WF n → ∀ key, stored n key ≠ none →
    ∀ isRoot,
    (deleteGo isRoot n key = some none ∧ isRoot = false ∧
        (∀ k2, stored n k2 ≠ none → k2 = key)) ∨
    (∃ n', deleteGo isRoot n key = some (some n') ∧
        stored n' key = none ∧ (∀ k2, k2 ≠ key → stored n' k2 = stored n k2)) := by
  intro N
  induction N with
  | zero =>
    intro n hle
    have := nodeCount_pos n
    omega
  | succ N ih =>
    intro n hle hWF key hkey isRoot
    cases n with
    | mk lf dt es =>
    cases key with
    | nil =>
      have hlf : lf = true := by
        cases lf
        · rw [stored_nil_key] at hkey
          simp at hkey
        · rfl
      subst hlf
      rw [deleteGo_nil_key]
      by_cases hc : es = Edges.nilMap ∧ isRoot = false
      · left
        refine ⟨by rw [if_pos hc], hc.2, ?_⟩
        intro k2 hk2
        cases k2 with
        | nil => rfl
        | cons x xs =>
          exfalso
          apply hk2
          refine stored_no_edge ?_ (rfl : (x :: xs).head? = some x) true dt
          rw [hc.1]
          rfl
      · right
        refine ⟨Node.mk false dt es, by rw [if_neg hc], ?_, ?_⟩
        · rw [stored_nil_key]
          rfl
        · intro k2 hk2
          cases k2 with
          | nil => exact absurd rfl hk2
          | cons x xs => exact stored_cons_ext false true dt dt es x xs
    | cons b bs =>
      have hlook : ∃ ℓ c, lookupE es b = some (ℓ, c) := by
        cases hb : lookupE es b with
        | none =>
          exact absurd (stored_no_edge hb (rfl : (b :: bs).head? = some b) lf dt) hkey
        | some v =>
          obtain ⟨ℓ, c⟩ := v
          exact ⟨ℓ, c, rfl⟩
      obtain ⟨ℓ, c, hb⟩ := hlook
      have hhead := hWF.head _ _ _ hb
      have hWFc := hWF.child _ _ _ hb
      have hcnt := lookupE_nodeCount_lt hb lf dt
      have hpre : ∃ s3, (b :: bs) = ℓ ++ s3 := by
        by_contra hnp
        push_neg at hnp
        exact hkey (stored_not_through hb (rfl : (b :: bs).head? = some b)
          (fun s h => hnp s h) lf dt)
      obtain ⟨s3, hs3⟩ := hpre
      have hsc : stored c s3 ≠ none := by
        intro h
        apply hkey
        rw [hs3, stored_through hb hhead lf dt s3, h]
      have hlen : ¬ ((b :: bs).length < ℓ.length) := by
        rw [hs3, List.length_append]
        omega
      have hdrop : (b :: bs).drop ℓ.length = s3 := by
        rw [hs3]
        exact List.drop_left ℓ s3
      rw [deleteGo_cons, deleteE_found hb, if_neg hlen, hdrop]
      rcases ih c (by omega) hWFc s3 hsc false with ⟨hdel, _, honly⟩ | ⟨c', hdel, hgone, hframe⟩
      · rw [hdel]
        by_cases hclean : lenE (removeE es b) = 0 ∧ lf = false ∧ isRoot = false
        · left
          refine ⟨?_, hclean.2.2, ?_⟩
          · show (if true = true ∧ lenE (removeE es b) = 0 ∧ lf = false ∧ isRoot = false then
                (some none : Option (Option Node))
              else some (some (Node.mk lf dt (removeE es b)))) = some none
            rw [if_pos ⟨rfl, hclean⟩]
          · intro k2 hk2
            cases k2 with
            | nil =>
              rw [stored_nil_key, hclean.2.1] at hk2
              simp at hk2
            | cons x xs =>
              rcases eq_or_ne x b with hxb | hx
              · subst hxb
                by_cases hp : ∃ s4, (x :: xs) = ℓ ++ s4
                · obtain ⟨s4, hs4⟩ := hp
                  rw [hs4, stored_through hb hhead lf dt s4] at hk2
                  have h4 := honly s4 hk2
                  rw [hs4, h4, ← hs3]
                · exfalso
                  exact hk2 (stored_not_through hb (rfl : (x :: xs).head? = some x)
                    (fun s h => hp ⟨s, h⟩) lf dt)
              · exfalso
                apply hk2
                have hnone := removeE_empty_other hb hclean.1 x hx
                exact stored_no_edge hnone (rfl : (x :: xs).head? = some x) lf dt
        · right
          refine ⟨Node.mk lf dt (removeE es b), ?_, ?_, ?_⟩
          · show (if true = true ∧ lenE (removeE es b) = 0 ∧ lf = false ∧ isRoot = false then
                (some none : Option (Option Node))
              else some (some (Node.mk lf dt (removeE es b)))) =
              some (some (Node.mk lf dt (removeE es b)))
            rw [if_neg (fun h => hclean h.2)]
          · exact stored_no_edge (lookupE_removeE_self hWF.sorted b)
              (rfl : (b :: bs).head? = some b) lf dt
          · intro k2 hk2
            cases k2 with
            | nil => rw [stored_nil_key, stored_nil_key]
            | cons x xs =>
              rcases eq_or_ne x b with hxb | hx
              · subst hxb
                rw [stored_no_edge (lookupE_removeE_self hWF.sorted x)
                  (rfl : (x :: xs).head? = some x) lf dt]
                by_cases hp : ∃ s4, (x :: xs) = ℓ ++ s4
                · obtain ⟨s4, hs4⟩ := hp
                  have hs4ne : s4 ≠ s3 := by
                    rintro rfl
                    rw [← hs3] at hs4
                    exact hk2 hs4
                  rw [hs4, stored_through hb hhead lf dt s4]
                  cases hsc4 : stored c s4 with
                  | none => rfl
                  | some v => exact absurd (honly s4 (by rw [hsc4]; simp)) hs4ne
                · rw [stored_not_through hb (rfl : (x :: xs).head? = some x)
                    (fun s h => hp ⟨s, h⟩) lf dt]
              · rw [stored_cons_congr (lookupE_removeE_ne es hx) lf dt xs]
      · rw [hdel]
        right
        have hWFc' : WF c' := deleteGo_WF hWFc hdel
        have hmerge := stored_merge_eq hb hhead hWFc' lf dt
        refine ⟨Node.mk lf dt (updE es b (deleteMerge ℓ c')), ?_, ?_, ?_⟩
        · show (if false = true ∧ lenE (updE es b (deleteMerge ℓ c')) = 0 ∧ lf = false ∧
                isRoot = false then (some none : Option (Option Node))
              else some (some (Node.mk lf dt (updE es b (deleteMerge ℓ c'))))) =
            some (some (Node.mk lf dt (updE es b (deleteMerge ℓ c'))))
          rw [if_neg (by simp)]
        · rw [hmerge (b :: bs), hs3,
            stored_through (lookupE_updE_self hb (ℓ, c')) hhead lf dt s3, hgone]
        · intro k2 hk2
          rw [hmerge k2]
          cases k2 with
          | nil => rw [stored_nil_key, stored_nil_key]
          | cons x xs =>
            rcases eq_or_ne x b with hxb | hx
            · subst hxb
              by_cases hp : ∃ s4, (x :: xs) = ℓ ++ s4
              · obtain ⟨s4, hs4⟩ := hp
                have hs4ne : s4 ≠ s3 := by
                  rintro rfl
                  rw [← hs3] at hs4
                  exact hk2 hs4
                rw [hs4, stored_through (lookupE_updE_self hb (ℓ, c')) hhead lf dt s4,
                  stored_through hb hhead lf dt s4]
                exact hframe s4 hs4ne
              · rw [stored_not_through (lookupE_updE_self hb (ℓ, c'))
                  (rfl : (x :: xs).head? = some x) (fun s h => hp ⟨s, h⟩) lf dt]
                rw [stored_not_through hb (rfl : (x :: xs).head? = some x)
                  (fun s h => hp ⟨s, h⟩) lf dt]
            · exact stored_cons_congr (lookupE_updE_ne es (ℓ, c') hx) lf dt xs

theorem insertGo_WF_top {n : Node} (hWF : WF n) (key d : List Nat) :
    WF (insertGo n key d) := insertGo_WF hWF key d

/-! ### The invariant along runs of the public operations -/

def TrieWF (t : Trie) : Prop := WF t.root ∧ t.root.isLeaf = false

theorem insertGo_isLeaf (n : Node) (key d : List Nat) :
    (insertGo n key d).isLeaf = n.isLeaf := by
  cases n with
  | mk lf dt es =>
    cases key with
    | nil => rw [insertGo_nil]
    | cons b bs =>
      rw [insertGo_cons]
      rfl

theorem deleteGo_isLeaf_false {isRoot : Bool} {n : Node} {key : List Nat} {r : Node}
    (h : deleteGo isRoot n key = some (some r)) (hn : n.isLeaf = false) : r.isLeaf = false := by
  cases n with
  | mk lf dt es =>
    have hlf : lf = false := hn
    subst hlf
    cases key with
    | nil =>
      rw [deleteGo_nil_key] at h
      split_ifs at h
      · simp at h
      · simp only [Option.some.injEq] at h
        rw [← h]
        rfl
    | cons b bs =>
      rw [deleteGo_cons] at h
      cases hde : deleteE es b (b :: bs) with
      | none =>
        rw [hde] at h
        cases h
      | some p =>
        obtain ⟨es', removed⟩ := p
        rw [hde] at h
        have h' : (if removed = true ∧ lenE es' = 0 ∧ false = false ∧ isRoot = false then
            (some none : Option (Option Node)) else some (some (Node.mk false dt es'))) =
            some (some r) := h
        split_ifs at h'
        · simp at h'
        · simp only [Option.some.injEq] at h'
          rw [← h']
          rfl

theorem trieWF_NewTrie : TrieWF NewTrie := by
  constructor
  · refine WF.mk _ _ _ ?_ ?_ ?_
    · simp [sortedE, rawKeys]
    · intro b ℓ c h; cases h
    · intro b ℓ c h; cases h
  · rfl

theorem runOps_WF : ∀ ops t t', runOps t ops = some t' → TrieWF t → TrieWF t' := by
  intro ops
  induction ops with
  | nil =>
    intro t t' h htw
    simp only [runOps, Option.some.injEq] at h
    rw [← h]
    exact htw
  | cons op ops ih =>
    intro t t' h htw
    simp only [runOps] at h
    cases ha : applyOp t op with
    | none => rw [ha] at h; cases h
    | some t1 =>
      rw [ha] at h
      refine ih t1 t' h ?_
      cases op with
      | ins k d =>
        simp only [applyOp, Option.some.injEq] at ha
        rw [← ha]
        refine ⟨insertGo_WF htw.1 k d, ?_⟩
        rw [show (t.InsertItem k d).root = insertGo t.root k d from rfl]
        rw [insertGo_isLeaf]
        exact htw.2
      | del k =>
        simp only [applyOp] at ha
        unfold Trie.DeleteItem at ha
        cases hd : deleteGo true t.root k with
        | none => rw [hd] at ha; cases ha
        | some o =>
          cases o with
          | none => rw [hd] at ha; cases ha
          | some r =>
            rw [hd] at ha
            simp only [Option.some.injEq] at ha
            rw [← ha]
            exact ⟨deleteGo_WF htw.1 hd, deleteGo_isLeaf_false hd htw.2⟩

theorem Reachable_WF {t : Trie} (h : Reachable t) : TrieWF t := by
  obtain ⟨ops, hops⟩ := h
  exact runOps_WF ops NewTrie t hops trieWF_NewTrie

/-! ### Bridging stored with the public observations -/

theorem getItem_of_stored {t : Trie} {k v : List Nat} (h : stored t.root k = some v) :
    t.GetItem k = some v := by
  unfold stored at h
  unfold Trie.GetItem
  cases hg : getNode t.root k with
  | none => rw [hg] at h; cases h
  | some m =>
    rw [hg] at h
    have h' : (if m.isLeaf = true then some m.data else none) = some v := h
    split_ifs at h'
    simp only [Option.some.injEq] at h'
    simp [Option.map, h']

theorem hasItem_true_iff {t : Trie} {k : List Nat} :
    t.HasItem k = true ↔ stored t.root k ≠ none := by
  rw [hasItem_eq_stored, Option.isSome_iff_ne_none]

theorem hasItem_false_iff {t : Trie} {k : List Nat} :
    t.HasItem k = false ↔ stored t.root k = none := by
  rw [hasItem_eq_stored]
  cases stored t.root k <;> simp

/-! ### Claim theorems: deletion, insertion, empty key -/

/-- C4: deleting a present key makes it absent and leaves every other
present key with its membership and data intact (including when the
deletion merges an intermediate node with its single remaining child,
as the witness below exercises). -/
theorem C4_delete_present {t : Trie} (ht : Reachable t) {key k2 : List Nat}
    (hk : t.HasItem key = true) (hk2 : t.HasItem k2 = true) (hne : k2 ≠ key) :
    ∃ t', t.DeleteItem key = some t' ∧ t'.HasItem key = false ∧
      t'.HasItem k2 = true ∧ t'.GetItem k2 = t.GetItem k2 := by
  have hWF := (Reachable_WF ht).1
  have hst : stored t.root key ≠ none := hasItem_true_iff.mp hk
  have hst2 : stored t.root k2 ≠ none := hasItem_true_iff.mp hk2
  rcases deleteGo_spec_aux (nodeCount t.root) t.root (le_refl _) hWF key hst true with
    ⟨_, hfalse, _⟩ | ⟨n', hd, hgone, hframe⟩
  · cases hfalse
  · have hdel : t.DeleteItem key = some ⟨n', t.sorted⟩ := by
      unfold Trie.DeleteItem
      rw [hd]
    refine ⟨⟨n', t.sorted⟩, hdel, ?_, ?_, ?_⟩
    · rw [hasItem_false_iff]
      exact hgone
    · rw [hasItem_true_iff]
      show stored n' k2 ≠ none
      rw [hframe k2 hne]
      exact hst2
    · obtain ⟨v, hv⟩ := Option.ne_none_iff_exists'.mp hst2
      have hv' : stored n' k2 = some v := by rw [hframe k2 hne]; exact hv
      rw [getItem_of_stored hv]
      exact getItem_of_stored hv'

theorem C4_witness : Reachable ⟨Node.mk false []
      (Edges.cons 1 [1, 2]
        (Node.mk false []
          (Edges.cons 3 [3] (Node.mk true [7] Edges.nilMap)
            (Edges.cons 4 [4] (Node.mk true [8] Edges.nilMap) Edges.nil)))
        Edges.nil), false⟩ ∧
    Trie.HasItem ⟨Node.mk false []
      (Edges.cons 1 [1, 2]
        (Node.mk false []
          (Edges.cons 3 [3] (Node.mk true [7] Edges.nilMap)
            (Edges.cons 4 [4] (Node.mk true [8] Edges.nilMap) Edges.nil)))
        Edges.nil), false⟩ [1, 2, 3] = true ∧
    Trie.HasItem ⟨Node.mk false []
      (Edges.cons 1 [1, 2]
        (Node.mk false []
          (Edges.cons 3 [3] (Node.mk true [7] Edges.nilMap)
            (Edges.cons 4 [4] (Node.mk true [8] Edges.nilMap) Edges.nil)))
        Edges.nil), false⟩ [1, 2, 4] = true ∧
    ∃ t', Trie.DeleteItem ⟨Node.mk false []
      (Edges.cons 1 [1, 2]
        (Node.mk false []
          (Edges.cons 3 [3] (Node.mk true [7] Edges.nilMap)
            (Edges.cons 4 [4] (Node.mk true [8] Edges.nilMap) Edges.nil)))
        Edges.nil), false⟩ [1, 2, 3] = some t' ∧
      t'.HasItem [1, 2, 3] = false ∧ t'.HasItem [1, 2, 4] = true ∧
      t'.GetItem [1, 2, 4] = Trie.GetItem ⟨Node.mk false []
        (Edges.cons 1 [1, 2]
          (Node.mk false []
            (Edges.cons 3 [3] (Node.mk true [7] Edges.nilMap)
              (Edges.cons 4 [4] (Node.mk true [8] Edges.nilMap) Edges.nil)))
          Edges.nil), false⟩ [1, 2, 4] := by
  refine ⟨⟨[Op.ins [1, 2, 3] [7], Op.ins [1, 2, 4] [8]], by decide⟩, by decide, by decide, ?_⟩
  exact C4_delete_present ⟨[Op.ins [1, 2, 3] [7], Op.ins [1, 2, 4] [8]], by decide⟩
    (by decide) (by decide) (by decide)

/-- C5 counterexample: the claim quantifies over every key, but for the
empty key InsertItem is a no-op (the Go loop body never runs), so
HasItem of the empty key stays false. -/
theorem C5_counterexample : Trie.HasItem (Trie.InsertItem NewTrie [] [5]) [] = false := by
  decide

/-- C5 (amended to nonempty keys): after InsertItem(k, d) with k
nonempty on a reachable trie, HasItem(k) is true and GetItem(k)
returns d. -/
theorem C5_insert_get {t : Trie} (ht : Reachable t) {key : List Nat} (hk : key ≠ [])
    (d : List Nat) :
    (t.InsertItem key d).HasItem key = true ∧ (t.InsertItem key d).GetItem key = some d := by
  have hWF := (Reachable_WF ht).1
  obtain ⟨h1, _⟩ := insertGo_stored_aux (nodeCount t.root) t.root (le_refl _) hWF key d hk
  constructor
  · rw [hasItem_true_iff]
    show stored (insertGo t.root key d) key ≠ none
    rw [h1]
    simp
  · exact getItem_of_stored h1

theorem C5_witness : Reachable NewTrie ∧ ([1, 2] : List Nat) ≠ [] ∧
    ((NewTrie.InsertItem [1, 2] [7]).HasItem [1, 2] = true ∧
      (NewTrie.InsertItem [1, 2] [7]).GetItem [1, 2] = some [7]) :=
  ⟨⟨[], by decide⟩, by decide, C5_insert_get ⟨[], by decide⟩ (by decide) [7]⟩

/-- C9 counterexample: inserting [1,3] into a trie holding only [1,2]
splits the edge and creates an intermediate node for [1]; GetItem([1])
changes from none (the Go code dereferences a nil node and crashes) to
some [] (the non-leaf intermediate node's nil data). -/
theorem C9_counterexample :
    (runOps NewTrie [Op.ins [1, 2] [5]]).map
        (fun t => (t.GetItem [1], (t.InsertItem [1, 3] [6]).GetItem [1])) =
      some (none, some []) := by
  decide

/-- C9 (amended): insertion of key never changes HasItem of any other
key, and never changes GetItem of any other stored key. -/
theorem C9_insert_frame {t : Trie} (ht : Reachable t) (key d : List Nat)
    {k2 : List Nat} (hne : k2 ≠ key) :
    (t.InsertItem key d).HasItem k2 = t.HasItem k2 ∧
      (t.HasItem k2 = true → (t.InsertItem key d).GetItem k2 = t.GetItem k2) := by
  have hWF := (Reachable_WF ht).1
  cases key with
  | nil =>
    have hid : t.InsertItem [] d = t := by
      cases t with
      | mk root sorted =>
        unfold Trie.InsertItem
        rw [insertGo_nil]
    rw [hid]
    exact ⟨rfl, fun _ => rfl⟩
  | cons b bs =>
    obtain ⟨_, hframe⟩ :=
      insertGo_stored_aux (nodeCount t.root) t.root (le_refl _) hWF (b :: bs) d (by simp)
    have hfr := hframe k2 hne
    constructor
    · rw [hasItem_eq_stored, hasItem_eq_stored]
      show (stored (insertGo t.root (b :: bs) d) k2).isSome = (stored t.root k2).isSome
      rw [hfr]
    · intro hk2
      obtain ⟨v, hv⟩ := Option.ne_none_iff_exists'.mp (hasItem_true_iff.mp hk2)
      have hv' : stored (insertGo t.root (b :: bs) d) k2 = some v := by rw [hfr]; exact hv
      rw [getItem_of_stored hv]
      exact getItem_of_stored hv'

theorem C9_witness : Reachable NewTrie ∧ ([2] : List Nat) ≠ [1] ∧
    ((NewTrie.InsertItem [1] [7]).HasItem [2] = NewTrie.HasItem [2] ∧
      (NewTrie.HasItem [2] = true → (NewTrie.InsertItem [1] [7]).GetItem [2] =
        NewTrie.GetItem [2])) :=
  ⟨⟨[], by decide⟩, by decide, C9_insert_frame ⟨[], by decide⟩ [1] [7] (by decide)⟩

/-- C10: inserting the empty key is a no-op, and the empty key is never
present (the root never becomes a leaf). -/
theorem C10_empty_key {t : Trie} (ht : Reachable t) (d : List Nat) :
    t.InsertItem [] d = t ∧ t.HasItem [] = false := by
  constructor
  · cases t with
    | mk root sorted =>
      unfold Trie.InsertItem
      rw [insertGo_nil]
  · have hroot := (Reachable_WF ht).2
    unfold Trie.HasItem
    rw [getNode_nil_key]
    exact hroot

theorem C10_witness : Reachable NewTrie ∧
    (NewTrie.InsertItem [] [7] = NewTrie ∧ NewTrie.HasItem [] = false) :=
  ⟨⟨[], by decide⟩, C10_empty_key ⟨[], by decide⟩ [7]⟩

/-! ### Claim theorems: the code bugs -/

/-- C1 (code bug): DeleteItem of the absent key [1,3] on a trie holding
only [1,2] removes the stored key [1,2] — the recursion slices the key
by the label length without checking that the label matches, so it
reaches the leaf of [1,2] with an exhausted key and deletes it.  The
claim (deleting a non-existent key is a no-op) fails on the code. -/
theorem C1_delete_absent_removes_other :
    runOps NewTrie [Op.ins [1, 2] [5]] =
      some ⟨Node.mk false [] (Edges.cons 1 [1, 2] (Node.mk true [5] Edges.nilMap) Edges.nil),
        false⟩ ∧
    Trie.HasItem ⟨Node.mk false [] (Edges.cons 1 [1, 2] (Node.mk true [5] Edges.nilMap)
      Edges.nil), false⟩ [1, 3] = false ∧
    Trie.DeleteItem ⟨Node.mk false [] (Edges.cons 1 [1, 2] (Node.mk true [5] Edges.nilMap)
      Edges.nil), false⟩ [1, 3] = some ⟨Node.mk false [] Edges.nil, false⟩ ∧
    Trie.HasItem (⟨Node.mk false [] Edges.nil, false⟩ : Trie) [1, 2] = false := by
  decide

/-- C2 (code bug): DeleteItem of key [1] on a trie whose root edge has
label [1,2] evaluates key[len(label):] with len(label) greater than the
key length, a Go slice-bounds panic (modelled as none).  DeleteItem is
therefore not total. -/
theorem C2_delete_panics :
    runOps NewTrie [Op.ins [1, 2] [5]] =
      some ⟨Node.mk false [] (Edges.cons 1 [1, 2] (Node.mk true [5] Edges.nilMap) Edges.nil),
        false⟩ ∧
    Trie.DeleteItem ⟨Node.mk false [] (Edges.cons 1 [1, 2] (Node.mk true [5] Edges.nilMap)
      Edges.nil), false⟩ [1] = none := by
  decide

/-- C3 (code bug): GetItem and Set never signal NotFound.  On an absent
key getNode returns nil and the Go code dereferences it (modelled as
none); on a key ending at a non-leaf node GetItem returns that node's
nil data as a normal value and Set overwrites the non-leaf node's data
instead of reporting NotFound. -/
theorem C3_get_set_no_notfound :
    NewTrie.GetItem [1] = none ∧
    NewTrie.Set [1] [9] = none ∧
    runOps NewTrie [Op.ins [1, 2] [5], Op.ins [1, 3] [6]] =
      some ⟨Node.mk false []
        (Edges.cons 1 [1]
          (Node.mk false []
            (Edges.cons 2 [2] (Node.mk true [5] Edges.nilMap)
              (Edges.cons 3 [3] (Node.mk true [6] Edges.nilMap) Edges.nil)))
          Edges.nil), false⟩ ∧
    Trie.HasItem ⟨Node.mk false []
      (Edges.cons 1 [1]
        (Node.mk false []
          (Edges.cons 2 [2] (Node.mk true [5] Edges.nilMap)
            (Edges.cons 3 [3] (Node.mk true [6] Edges.nilMap) Edges.nil)))
        Edges.nil), false⟩ [1] = false ∧
    Trie.GetItem ⟨Node.mk false []
      (Edges.cons 1 [1]
        (Node.mk false []
          (Edges.cons 2 [2] (Node.mk true [5] Edges.nilMap)
            (Edges.cons 3 [3] (Node.mk true [6] Edges.nilMap) Edges.nil)))
        Edges.nil), false⟩ [1] = some [] ∧
    (Trie.Set ⟨Node.mk false []
      (Edges.cons 1 [1]
        (Node.mk false []
          (Edges.cons 2 [2] (Node.mk true [5] Edges.nilMap)
            (Edges.cons 3 [3] (Node.mk true [6] Edges.nilMap) Edges.nil)))
        Edges.nil), false⟩ [1] [9]).isSome = true := by
  decide

/-- C7 (code bug): after ins [1]; ins [1,2]; del [1,2]; del [1] the
tree keeps a non-root node with isLeaf false and zero outgoing edges.
The terminal case of delete tests node.edges == nil, but the map of the
node for [1] was emptied (non-nil), so the dead node is not removed. -/
theorem C7_dead_node_remains :
    runOps NewTrie [Op.ins [1] [5], Op.ins [1, 2] [6], Op.del [1, 2], Op.del [1]] =
      some ⟨Node.mk false [] (Edges.cons 1 [1] (Node.mk false [5] Edges.nil) Edges.nil),
        false⟩ ∧
    (Node.mk false [5] Edges.nil).isLeaf = false ∧
    lenE (Node.mk false [5] Edges.nil).edges = 0 ∧
    (Node.mk false [5] Edges.nil).edges ≠ Edges.nilMap := by
  decide

/-! ### Paths: keys that land exactly on a node -/

inductive TPath : Node → List Nat → Node → Prop where
  | refl (n : Node) : TPath n [] n
  | step {n : Node} {b : Nat} {ℓ : List Nat} {c m : Node} {q : List Nat}
      (hb : lookupE n.edges b = some (ℓ, c)) (hp : TPath c q m) :
      TPath n (ℓ ++ q) m

theorem Path_WF {n : Node} {q : List Nat} {m : Node} (hp : TPath n q m) (hWF : WF n) :
    WF m := by
  induction hp with
  | refl => exact hWF
  | step hb _ ih =>
    rename_i n' b ℓ c m' q' hpp
    cases n' with
    | mk lf dt es =>
      simp only [Node.edges] at hb
      exact ih (hWF.child _ _ _ hb)

theorem Path_count {n : Node} {q : List Nat} {m : Node} (hp : TPath n q m) :
    nodeCount m ≤ nodeCount n := by
  induction hp with
  | refl => exact le_refl _
  | step hb _ ih =>
    rename_i n' b ℓ c m' q' hpp
    cases n' with
    | mk lf dt es =>
      simp only [Node.edges] at hb
      have := lookupE_nodeCount_lt hb lf dt
      omega

theorem Path_stored {n : Node} {q : List Nat} {m : Node} (hp : TPath n q m) (hWF : WF n) :
    ∀ s, stored n (q ++ s) = stored m s := by
  induction hp with
  | refl => intro s; rfl
  | step hb _ ih =>
    rename_i n' b ℓ c m' q' hpp
    intro s
    cases n' with
    | mk lf dt es =>
      simp only [Node.edges] at hb
      rw [List.append_assoc, stored_through hb (hWF.head _ _ _ hb) lf dt (q' ++ s)]
      exact ih (hWF.child _ _ _ hb) s

theorem Path_snoc {n : Node} {q : List Nat} {m : Node} (hp : TPath n q m)
    {b : Nat} {ℓ : List Nat} {c : Node} (hb : lookupE m.edges b = some (ℓ, c)) :
    TPath n (q ++ ℓ) c := by
  induction hp with
  | refl =>
    rename_i n'
    have h2 : TPath n' (ℓ ++ []) c := TPath.step hb (TPath.refl c)
    rw [List.append_nil] at h2
    simpa using h2
  | step hb2 _ ih =>
    rename_i n' b2 ℓ2 c2 m2 q2 hpp
    rw [List.append_assoc]
    exact TPath.step hb2 (ih hb)

/-! ### startsWith evaluation and analysis -/

theorem startsWithGo_nil (n : Node) : startsWithGo n [] = some (n, []) := by
  cases n; rfl

theorem startsWithGo_cons (lf : Bool) (dt : List Nat) (es : Edges) (b : Nat) (bs : List Nat) :
    startsWithGo (.mk lf dt es) (b :: bs) = startsWithE es b (b :: bs) := rfl

theorem startsWithE_none {es : Edges} {b : Nat} (hb : lookupE es b = none) (k : List Nat) :
    startsWithE es b k = none := by
  induction es using edgesInd with
  | nilMap => rfl
  | nil => rfl
  | cons b2 ℓ2 c2 rest ih =>
    simp only [lookupE] at hb
    rcases eq_or_ne b b2 with hbb | hbb
    · simp [hbb] at hb
    · simp only [if_neg hbb] at hb
      simp only [startsWithE, if_neg hbb]
      exact ih hb

theorem startsWithE_some {es : Edges} {b : Nat} {ℓ : List Nat} {c : Node}
    (hb : lookupE es b = some (ℓ, c)) (k : List Nat) :
    startsWithE es b k =
      if getFirstMismatch k ℓ = ℓ.length then startsWithGo c (k.drop (getFirstMismatch k ℓ))
      else
        if getFirstMismatch k ℓ = k.length then some (c, ℓ.drop (getFirstMismatch k ℓ))
        else none := by
  induction es using edgesInd with
  | nilMap => cases hb
  | nil => cases hb
  | cons b2 ℓ2 c2 rest ih =>
    simp only [lookupE] at hb
    rcases eq_or_ne b b2 with hbb | hbb
    · simp only [if_pos hbb] at hb
      simp only [Option.some.injEq, Prod.mk.injEq] at hb
      obtain ⟨rfl, rfl⟩ := hb
      simp only [startsWithE, if_pos hbb]
    · simp only [if_neg hbb] at hb
      simp only [startsWithE, if_neg hbb]
      exact ih hb

/-- A key that is an exact node path is found by startsWith with no
extension. -/
theorem startsWith_of_path {n : Node} {q : List Nat} {m : Node}
    (hp : TPath n q m) (hWF : WF n) : startsWithGo n q = some (m, []) := by
  induction hp with
  | refl => exact startsWithGo_nil _
  | step hb _ ih =>
    rename_i n' b ℓ c m' q' hpp
    cases n' with
    | mk lf dt es =>
      simp only [Node.edges] at hb
      have hhead := hWF.head _ _ _ hb
      obtain ⟨xs, rfl⟩ : ∃ xs, ℓ = b :: xs := by
        cases ℓ with
        | nil => cases hhead
        | cons x xs =>
          have hx : x = b := by simpa using hhead
          exact ⟨xs, by rw [hx]⟩
      rw [List.cons_append, startsWithGo_cons, startsWithE_some hb]
      have h1 : getFirstMismatch (b :: (xs ++ q')) (b :: xs) = (b :: xs).length := by
        rw [getFirstMismatch_eq]
        have := mismatchAux_append (b :: xs) q'
        simpa using this
      rw [if_pos h1, h1]
      have h2 : (b :: (xs ++ q')).drop (b :: xs).length = q' := by
        have := List.drop_left (b :: xs) q'
        simpa using this
      rw [h2]
      exact ih (hWF.child _ _ _ hb)

/-- Two lists that are both prefixes of a common list are comparable. -/
theorem prefix_comparable : ∀ (a c bb dd : List Nat), a ++ bb = c ++ dd →
    (∃ u, c = a ++ u) ∨ (∃ u, a = c ++ u) := by
  intro a
  induction a with
  | nil =>
    intro c bb dd _
    exact Or.inl ⟨c, rfl⟩
  | cons x xs ih =>
    intro c bb dd h
    cases c with
    | nil => exact Or.inr ⟨x :: xs, rfl⟩
    | cons y ys =>
      simp only [List.cons_append, List.cons.injEq] at h
      obtain ⟨rfl, h2⟩ := h
      rcases ih ys bb dd h2 with ⟨u, hu⟩ | ⟨u, hu⟩
      · exact Or.inl ⟨u, by simp [hu]⟩
      · exact Or.inr ⟨u, by simp [hu]⟩

/-- Full analysis of the startsWith walk. -/
theorem startsWith_spec : ∀ N n, nodeCount n ≤ N → WF n → ∀ p,
    (match startsWithGo n p with
     | none => ∀ k, stored n k ≠ none → ∀ s, k ≠ p ++ s
     | some (m, ext) => TPath n (p ++ ext) m ∧
         (∀ k, stored n k ≠ none → ∀ s, k = p ++ s → ∃ s2, k = (p ++ ext) ++ s2)) := by
  intro N
  induction N with
  | zero =>
    intro n hle
    have := nodeCount_pos n
    omega
  | succ N ih =>
    intro n hle hWF p
    cases n with
    | mk lf dt es =>
    cases p with
    | nil =>
      rw [startsWithGo_nil]
      refine ⟨by simpa using TPath.refl (Node.mk lf dt es), ?_⟩
      intro k _ s hs
      exact ⟨s, by simpa using hs⟩
    | cons b bs =>
      rw [startsWithGo_cons]
      cases hb : lookupE es b with
      | none =>
        rw [startsWithE_none hb]
        intro k hk s hs
        apply hk
        rw [hs]
        exact stored_no_edge hb (rfl : ((b :: bs) ++ s).head? = some b) lf dt
      | some v =>
        obtain ⟨ℓ, c⟩ := v
        have hhead := hWF.head _ _ _ hb
        have hWFc := hWF.child _ _ _ hb
        have hcnt := lookupE_nodeCount_lt hb lf dt
        rw [startsWithE_some hb, getFirstMismatch_eq]
        by_cases hfull : mismatchAux (b :: bs) ℓ = ℓ.length
        · rw [if_pos hfull]
          obtain ⟨p2, hp2⟩ : ∃ p2, (b :: bs) = ℓ ++ p2 := (mismatchAux_eq_len_iff _ _).1 hfull
          have hdrop : (b :: bs).drop (mismatchAux (b :: bs) ℓ) = p2 := by
            rw [hp2, mismatchAux_append]
            exact List.drop_left ℓ p2
          rw [hdrop]
          have hspec := ih c (by omega) hWFc p2
          cases hsw : startsWithGo c p2 with
          | none =>
            rw [hsw] at hspec
            intro k hk s hs
            have hkhead : k.head? = some b := by rw [hs]; rfl
            have hkpre : ∃ s3, k = ℓ ++ s3 := by
              by_contra hnp
              push_neg at hnp
              exact hk (stored_not_through hb hkhead (fun s3 h => hnp s3 h) lf dt)
            obtain ⟨s3, hs3⟩ := hkpre
            have hsc : stored c s3 ≠ none := by
              intro hnone
              apply hk
              rw [hs3, stored_through hb hhead lf dt s3, hnone]
            refine hspec s3 hsc s ?_
            have : ℓ ++ s3 = ℓ ++ (p2 ++ s) := by
              rw [← hs3, hs, hp2, List.append_assoc]
            exact List.append_cancel_left this
          | some w =>
            obtain ⟨m, ext⟩ := w
            rw [hsw] at hspec
            obtain ⟨hpath, hcompl⟩ := hspec
            constructor
            · have hp3 : TPath (Node.mk lf dt es) (ℓ ++ (p2 ++ ext)) m :=
                TPath.step (by simpa [Node.edges] using hb) hpath
              have : (b :: bs) ++ ext = ℓ ++ (p2 ++ ext) := by
                rw [hp2, List.append_assoc]
              rw [this]
              exact hp3
            · intro k hk s hs
              have hkhead : k.head? = some b := by rw [hs]; rfl
              have hkpre : ∃ s3, k = ℓ ++ s3 := by
                by_contra hnp
                push_neg at hnp
                exact hk (stored_not_through hb hkhead (fun s3 h => hnp s3 h) lf dt)
              obtain ⟨s3, hs3⟩ := hkpre
              have hsc : stored c s3 ≠ none := by
                intro hnone
                apply hk
                rw [hs3, stored_through hb hhead lf dt s3, hnone]
              have hs3dec : s3 = p2 ++ s := by
                have : ℓ ++ s3 = ℓ ++ (p2 ++ s) := by
                  rw [← hs3, hs, hp2, List.append_assoc]
                exact List.append_cancel_left this
              obtain ⟨s2, hs2⟩ := hcompl s3 hsc s hs3dec
              refine ⟨s2, ?_⟩
              rw [hs3, hs2, hp2]
              simp [List.append_assoc]
        · rw [if_neg hfull]
          by_cases hmid : mismatchAux (b :: bs) ℓ = (b :: bs).length
          · rw [if_pos hmid]
            obtain ⟨u, hu⟩ : ∃ u, ℓ = (b :: bs) ++ u := by
              rw [← mismatchAux_eq_len_iff ℓ (b :: bs), mismatchAux_comm]
              exact hmid
            have hdropu : ℓ.drop (mismatchAux (b :: bs) ℓ) = u := by
              rw [hu, mismatchAux_comm, mismatchAux_append]
              exact List.drop_left (b :: bs) u
            rw [hdropu]
            constructor
            · have hp3 : TPath (Node.mk lf dt es) (ℓ ++ []) c :=
                TPath.step (by simpa [Node.edges] using hb) (TPath.refl c)
              rw [List.append_nil, hu] at hp3
              exact hp3
            · intro k hk s hs
              have hkhead : k.head? = some b := by rw [hs]; rfl
              have hkpre : ∃ s3, k = ℓ ++ s3 := by
                by_contra hnp
                push_neg at hnp
                exact hk (stored_not_through hb hkhead (fun s3 h => hnp s3 h) lf dt)
              obtain ⟨s3, hs3⟩ := hkpre
              exact ⟨s3, by rw [hs3, hu]⟩
          · rw [if_neg hmid]
            intro k hk s hs
            have hkhead : k.head? = some b := by rw [hs]; rfl
            have hkpre : ∃ s3, k = ℓ ++ s3 := by
              by_contra hnp
              push_neg at hnp
              exact hk (stored_not_through hb hkhead (fun s3 h => hnp s3 h) lf dt)
            obtain ⟨s3, hs3⟩ := hkpre
            have hcomp : (b :: bs) ++ s = ℓ ++ s3 := by rw [← hs, ← hs3]
            rcases prefix_comparable (b :: bs) ℓ s s3 hcomp with ⟨u, hu1⟩ | ⟨u, hu1⟩
            · apply hmid
              rw [hu1, mismatchAux_comm, mismatchAux_append]
            · apply hfull
              exact (mismatchAux_eq_len_iff (b :: bs) ℓ).2 ⟨u, hu1⟩

/-! ### The set of keys stored in a subtree -/

theorem subKeys_mk (lf : Bool) (dt : List Nat) (es : Edges) :
    subKeys (.mk lf dt es) = (if lf then [[]] else []) ++ subKeysE es := rfl

theorem subKeysE_cons (b : Nat) (ℓ : List Nat) (c : Node) (rest : Edges) :
    subKeysE (.cons b ℓ c rest) = (subKeys c).map (fun s => ℓ ++ s) ++ subKeysE rest := rfl

theorem subKeysE_sub {es : Edges} {b : Nat} {ℓ : List Nat} {c : Node}
    (hb : lookupE es b = some (ℓ, c)) {s : List Nat} (hs : s ∈ subKeys c) :
    (ℓ ++ s) ∈ subKeysE es := by
  induction es using edgesInd with
  | nilMap => cases hb
  | nil => cases hb
  | cons b2 ℓ2 c2 rest ih =>
    simp only [lookupE] at hb
    rw [subKeysE_cons]
    rcases eq_or_ne b b2 with hbb | hbb
    · simp only [if_pos hbb, Option.some.injEq, Prod.mk.injEq] at hb
      obtain ⟨rfl, rfl⟩ := hb
      exact List.mem_append_left _ (List.mem_map.mpr ⟨s, hs, rfl⟩)
    · simp only [if_neg hbb] at hb
      exact List.mem_append_right _ (ih hb)

theorem subKeysE_decomp {es : Edges} (hs : sortedE es) {k : List Nat}
    (hk : k ∈ subKeysE es) :
    ∃ b ℓ c s, lookupE es b = some (ℓ, c) ∧ s ∈ subKeys c ∧ k = ℓ ++ s := by
  induction es using edgesInd with
  | nilMap => cases hk
  | nil => cases hk
  | cons b2 ℓ2 c2 rest ih =>
    rw [subKeysE_cons] at hk
    rcases List.mem_append.mp hk with hk1 | hk2
    · obtain ⟨s, hsmem, rfl⟩ := List.mem_map.mp hk1
      exact ⟨b2, ℓ2, c2, s, by simp [lookupE], hsmem, rfl⟩
    · obtain ⟨b, ℓ, c, s, hlook, hsmem, rfl⟩ := ih (sortedE_rest hs) hk2
      have hne : b ≠ b2 := by
        have hmem := lookupE_mem_keys hlook
        have := sortedE_head_lt hs hmem
        omega
      exact ⟨b, ℓ, c, s, by simp [lookupE, if_neg hne, hlook], hsmem, rfl⟩

theorem subKeys_sound : ∀ N n, nodeCount n ≤ N → WF n →
    ∀ k, k ∈ subKeys n → stored n k ≠ none := by
  intro N
  induction N with
  | zero =>
    intro n hle
    have := nodeCount_pos n
    omega
  | succ N ih =>
    intro n hle hWF k hk
    cases n with
    | mk lf dt es =>
      rw [subKeys_mk] at hk
      rcases List.mem_append.mp hk with hk1 | hk2
      · have hlf : lf = true ∧ k = [] := by
          cases lf
          · simp at hk1
          · simp at hk1
            exact ⟨rfl, hk1⟩
        obtain ⟨rfl, rfl⟩ := hlf
        rw [stored_nil_key]
        simp
      · obtain ⟨b, ℓ, c, s, hlook, hsmem, rfl⟩ := subKeysE_decomp hWF.sorted hk2
        rw [stored_through hlook (hWF.head _ _ _ hlook) lf dt s]
        have hcnt := lookupE_nodeCount_lt hlook lf dt
        exact ih c (by omega) (hWF.child _ _ _ hlook) s hsmem

theorem subKeys_complete : ∀ N n, nodeCount n ≤ N → WF n →
    ∀ k, stored n k ≠ none → k ∈ subKeys n := by
  intro N
  induction N with
  | zero =>
    intro n hle
    have := nodeCount_pos n
    omega
  | succ N ih =>
    intro n hle hWF k hk
    cases n with
    | mk lf dt es =>
      rw [subKeys_mk]
      cases k with
      | nil =>
        rw [stored_nil_key] at hk
        have hlf : lf = true := by
          cases lf
          · simp at hk
          · rfl
        subst hlf
        exact List.mem_append_left _ (by simp)
      | cons x xs =>
        cases hb : lookupE es x with
        | none =>
          exact absurd (stored_no_edge hb (rfl : (x :: xs).head? = some x) lf dt) hk
        | some v =>
          obtain ⟨ℓ, c⟩ := v
          have hkpre : ∃ s3, (x :: xs) = ℓ ++ s3 := by
            by_contra hnp
            push_neg at hnp
            exact hk (stored_not_through hb (rfl : (x :: xs).head? = some x)
              (fun s3 h => hnp s3 h) lf dt)
          obtain ⟨s3, hs3⟩ := hkpre
          have hsc : stored c s3 ≠ none := by
            intro hnone
            apply hk
            rw [hs3, stored_through hb (hWF.head _ _ _ hb) lf dt s3, hnone]
          have hcnt := lookupE_nodeCount_lt hb lf dt
          have hmem := ih c (by omega) (hWF.child _ _ _ hb) s3 hsc
          rw [hs3]
          exact List.mem_append_right _ (subKeysE_sub hb hmem)

theorem subKeysE_head {es : Edges} (hs : sortedE es)
    (hh : ∀ b ℓ c, lookupE es b = some (ℓ, c) → ℓ.head? = some b)
    {k : List Nat} (hk : k ∈ subKeysE es) :
    ∃ b, k.head? = some b ∧ b ∈ rawKeys es := by
  obtain ⟨b, ℓ, c, s, hlook, _, rfl⟩ := subKeysE_decomp hs hk
  exact ⟨b, head?_append_of_some (hh _ _ _ hlook) s, lookupE_mem_keys hlook⟩

theorem subKeys_nodup : ∀ N n, nodeCount n ≤ N → WF n → (subKeys n).Nodup := by
  intro N
  induction N with
  | zero =>
    intro n hle
    have := nodeCount_pos n
    omega
  | succ N ih =>
    intro n hle hWF
    cases n with
    | mk lf dt es =>
      rw [subKeys_mk]
      have hE : ∀ es2, sortedE es2 →
          (∀ b ℓ c, lookupE es2 b = some (ℓ, c) →
            ℓ.head? = some b ∧ WF c ∧ nodeCount c ≤ N) →
          (subKeysE es2).Nodup := by
        intro es2
        induction es2 using edgesInd with
        | nilMap => intro _ _; simp [subKeysE]
        | nil => intro _ _; simp [subKeysE]
        | cons b2 ℓ2 c2 rest ih2 =>
          intro hs2 hcond
          rw [subKeysE_cons]
          have hself := hcond b2 ℓ2 c2 (by simp [lookupE])
          have hrest : ∀ b ℓ c, lookupE rest b = some (ℓ, c) →
              ℓ.head? = some b ∧ WF c ∧ nodeCount c ≤ N := by
            intro b ℓ c hlook
            have hne : b ≠ b2 := by
              have hmem := lookupE_mem_keys hlook
              have := sortedE_head_lt hs2 hmem
              omega
            exact hcond b ℓ c (by simp [lookupE, if_neg hne, hlook])
          refine List.Nodup.append ?_ (ih2 (sortedE_rest hs2) hrest) ?_
          · refine List.Nodup.map ?_ (ih c2 (by omega) hself.2.1)
            intro s1 s2 h
            exact List.append_cancel_left h
          · intro k hk1 hk2
            obtain ⟨s, _, rfl⟩ := List.mem_map.mp hk1
            obtain ⟨b, hbhead, hbmem⟩ := subKeysE_head (sortedE_rest hs2)
              (fun b ℓ c hlook => (hrest b ℓ c hlook).1) hk2
            have hℓhead : (ℓ2 ++ s).head? = some b2 := head?_append_of_some hself.1 s
            rw [hℓhead] at hbhead
            simp only [Option.some.injEq] at hbhead
            have := sortedE_head_lt hs2 hbmem
            omega
      have hEdone : (subKeysE es).Nodup := by
        refine hE es hWF.sorted ?_
        intro b ℓ c hlook
        have hcnt := lookupE_nodeCount_lt hlook lf dt
        exact ⟨hWF.head _ _ _ hlook, hWF.child _ _ _ hlook, by omega⟩
      refine List.Nodup.append ?_ hEdone ?_
      · cases lf <;> simp
      · intro k hk1 hk2
        have hknil : k = [] := by
          cases lf
          · simp at hk1
          · simpa using hk1
        subst hknil
        obtain ⟨b, hbhead, _⟩ := subKeysE_head hWF.sorted hWF.head hk2
        cases hbhead

/-! ### Evaluating Keys -/

theorem keysGo_succ (root : Node) (fuel : Nat) (p : List Nat) :
    keysGo root (fuel + 1) p =
      match startsWithGo root p with
      | none => []
      | some (n, ext) =>
          (if n.isLeaf then [p ++ ext] else []) ++
            (edgesList n.edges).flatMap (fun e => keysGo root fuel ((p ++ ext) ++ e.2.1)) := rfl

theorem flatMapCongr {α β : Type} : ∀ (l : List α) (F G : α → List β),
    (∀ e ∈ l, F e = G e) → l.flatMap F = l.flatMap G := by
  intro l
  induction l with
  | nil => intro F G _; rfl
  | cons x xs ih =>
    intro F G h
    simp only [List.flatMap_cons]
    rw [h x (by simp), ih F G (fun e he => h e (by simp [he]))]

theorem mapFlatMap {α β γ : Type} (f : β → γ) : ∀ (l : List α) (g : α → List β),
    (l.flatMap g).map f = l.flatMap (fun x => (g x).map f) := by
  intro l
  induction l with
  | nil => intro g; rfl
  | cons x xs ih =>
    intro g
    simp only [List.flatMap_cons, List.map_append, ih]

theorem edgesList_lookup {es : Edges} (hs : sortedE es) {b : Nat} {ℓ : List Nat} {c : Node}
    (hmem : (b, ℓ, c) ∈ edgesList es) : lookupE es b = some (ℓ, c) := by
  induction es using edgesInd with
  | nilMap => cases hmem
  | nil => cases hmem
  | cons b2 ℓ2 c2 rest ih =>
    simp only [edgesList, List.mem_cons] at hmem
    rcases hmem with heq | hmem
    · simp only [Prod.mk.injEq] at heq
      obtain ⟨rfl, rfl, rfl⟩ := heq
      simp [lookupE]
    · have hbmem : b ∈ rawKeys rest := by
        clear ih hs
        induction rest using edgesInd with
        | nilMap => cases hmem
        | nil => cases hmem
        | cons b3 ℓ3 c3 rest3 ih3 =>
          simp only [edgesList, List.mem_cons] at hmem
          rcases hmem with heq | hmem2
          · simp only [Prod.mk.injEq] at heq
            simp [rawKeys, heq.1]
          · simp [rawKeys, ih3 hmem2]
      have hne : b ≠ b2 := by
        have := sortedE_head_lt hs hbmem
        omega
      simp only [lookupE, if_neg hne]
      exact ih (sortedE_rest hs) hmem

theorem subKeysE_flatMap : ∀ es : Edges, subKeysE es =
    (edgesList es).flatMap (fun e => (subKeys e.2.2).map (fun s => e.2.1 ++ s)) := by
  intro es
  induction es using edgesInd with
  | nilMap => rfl
  | nil => rfl
  | cons b ℓ c rest ih =>
    simp only [subKeysE_cons, edgesList, List.flatMap_cons, ih]

theorem keysGo_eq : ∀ fuel root p m ext, WF root →
    startsWithGo root p = some (m, ext) → TPath root (p ++ ext) m →
    nodeCount m ≤ fuel + 1 →
    keysGo root (fuel + 1) p = (subKeys m).map (fun s => (p ++ ext) ++ s) := by
  intro fuel
  induction fuel with
  | zero =>
    intro root p m ext hWF hsw hpath hcnt
    cases m with
    | mk lfm dtm esm =>
      have hcm : countE esm = 0 := by
        simp only [nodeCount] at hcnt
        omega
      have hnil : edgesList esm = [] ∧ subKeysE esm = [] := by
        cases esm with
        | nilMap => exact ⟨rfl, rfl⟩
        | nil => exact ⟨rfl, rfl⟩
        | cons b ℓ c rest =>
          exfalso
          simp only [countE] at hcm
          have := nodeCount_pos c
          omega
      rw [keysGo_succ, hsw]
      simp only [Node.edges, Node.isLeaf, hnil.1, subKeys_mk, hnil.2, List.flatMap_nil,
        List.append_nil, List.map_append]
      cases lfm <;> simp
  | succ fuel ih =>
    intro root p m ext hWF hsw hpath hcnt
    cases m with
    | mk lfm dtm esm =>
      have hWFm : WF (Node.mk lfm dtm esm) := Path_WF hpath hWF
      rw [keysGo_succ, hsw]
      simp only [Node.edges, Node.isLeaf]
      rw [subKeys_mk, List.map_append, subKeysE_flatMap, mapFlatMap]
      congr 1
      · cases lfm <;> simp
      · refine flatMapCongr _ _ _ ?_
        intro e he
        obtain ⟨b, ℓe, ce⟩ := e
        have hlook : lookupE esm b = some (ℓe, ce) := edgesList_lookup hWFm.sorted he
        have hlook2 : lookupE (Node.mk lfm dtm esm).edges b = some (ℓe, ce) := hlook
        have hpath2 : TPath root ((p ++ ext) ++ ℓe) ce := Path_snoc hpath hlook2
        have hsw2 : startsWithGo root ((p ++ ext) ++ ℓe) = some (ce, []) :=
          startsWith_of_path hpath2 hWF
        have hcnt2 : nodeCount ce ≤ fuel + 1 := by
          have h1 := lookupE_nodeCount_lt hlook lfm dtm
          omega
        have hpath3 : TPath root (((p ++ ext) ++ ℓe) ++ []) ce := by
          rw [List.append_nil]
          exact hpath2
        have hrec := ih root ((p ++ ext) ++ ℓe) ce [] hWF hsw2 hpath3 hcnt2
        rw [hrec]
        simp [List.map_map, Function.comp, List.append_assoc]

/-- C6: on every reachable trie, Keys(p) returns exactly the stored
keys that start with p, each exactly once (and hence an empty list when
no stored key starts with p). -/
theorem C6_keys {t : Trie} (ht : Reachable t) (p : List Nat) :
    (∀ k, k ∈ t.Keys p ↔ (t.HasItem k = true ∧ hasPref p k = true)) ∧ (t.Keys p).Nodup := by
  have hWF := (Reachable_WF ht).1
  have hspec := startsWith_spec (nodeCount t.root) t.root (le_refl _) hWF p
  unfold Trie.Keys
  cases hsw : startsWithGo t.root p with
  | none =>
    rw [hsw] at hspec
    have hempty : keysGo t.root (nodeCount t.root + 1) p = [] := by
      rw [keysGo_succ, hsw]
    rw [hempty]
    refine ⟨?_, List.nodup_nil⟩
    intro k
    simp only [List.not_mem_nil, false_iff]
    rintro ⟨h1, h2⟩
    obtain ⟨s, hs⟩ := (hasPref_iff p k).1 h2
    exact hspec k (hasItem_true_iff.mp h1) s hs
  | some pair =>
    obtain ⟨m, ext⟩ := pair
    rw [hsw] at hspec
    obtain ⟨hpath, hcompl⟩ := hspec
    have hcnt : nodeCount m ≤ nodeCount t.root + 1 :=
      le_trans (Path_count hpath) (by omega)
    have hkeys := keysGo_eq (nodeCount t.root) t.root p m ext hWF hsw hpath hcnt
    rw [hkeys]
    refine ⟨?_, ?_⟩
    · intro k
      constructor
      · intro hk
        obtain ⟨s, hsmem, rfl⟩ := List.mem_map.mp hk
        have hst : stored m s ≠ none :=
          subKeys_sound (nodeCount m) m (le_refl _) (Path_WF hpath hWF) s hsmem
        have hstored : stored t.root ((p ++ ext) ++ s) ≠ none := by
          rw [Path_stored hpath hWF s]
          exact hst
        refine ⟨hasItem_true_iff.mpr hstored, ?_⟩
        rw [hasPref_iff]
        exact ⟨ext ++ s, by simp [List.append_assoc]⟩
      · rintro ⟨h1, h2⟩
        obtain ⟨s2, hs2⟩ := (hasPref_iff p k).1 h2
        have hst := hasItem_true_iff.mp h1
        obtain ⟨s3, hs3⟩ := hcompl k hst s2 hs2
        refine List.mem_map.mpr ⟨s3, ?_, hs3.symm⟩
        apply subKeys_complete (nodeCount m) m (le_refl _) (Path_WF hpath hWF)
        rw [← Path_stored hpath hWF s3, ← hs3]
        exact hst
    · refine List.Nodup.map ?_ (subKeys_nodup (nodeCount m) m (le_refl _) (Path_WF hpath hWF))
      intro s1 s2 h
      exact List.append_cancel_left h

theorem C6_witness : Reachable ⟨Node.mk false []
      (Edges.cons 1 [1, 2]
        (Node.mk true [5] (Edges.cons 3 [3] (Node.mk true [6] Edges.nilMap) Edges.nil))
        Edges.nil), false⟩ ∧
    ((([1, 2] : List Nat) ∈ Trie.Keys ⟨Node.mk false []
        (Edges.cons 1 [1, 2]
          (Node.mk true [5] (Edges.cons 3 [3] (Node.mk true [6] Edges.nilMap) Edges.nil))
          Edges.nil), false⟩ [1] ↔
      (Trie.HasItem ⟨Node.mk false []
        (Edges.cons 1 [1, 2]
          (Node.mk true [5] (Edges.cons 3 [3] (Node.mk true [6] Edges.nilMap) Edges.nil))
          Edges.nil), false⟩ [1, 2] = true ∧ hasPref [1] [1, 2] = true)) ∧
      (Trie.Keys ⟨Node.mk false []
        (Edges.cons 1 [1, 2]
          (Node.mk true [5] (Edges.cons 3 [3] (Node.mk true [6] Edges.nilMap) Edges.nil))
          Edges.nil), false⟩ [1]).Nodup) := by
  refine ⟨⟨[Op.ins [1, 2] [5], Op.ins [1, 2, 3] [6]], by decide⟩, ?_, ?_⟩
  · exact (C6_keys ⟨[Op.ins [1, 2] [5], Op.ins [1, 2, 3] [6]], by decide⟩ [1]).1 [1, 2]
  · exact (C6_keys ⟨[Op.ins [1, 2] [5], Op.ins [1, 2, 3] [6]], by decide⟩ [1]).2

/-! ### Canonical structure of insert-only tries (claim C8)

Insertion builds edge maps in a canonical shape: a fresh leaf has a nil
edge map; a map that has received its first entry is a non-nil chain;
a non-root node is a leaf or branches (at least two edges); non-leaf
nodes carry nil data.  tailE extracts the base constructor of a chain
(the nil-map / empty-map distinction of the Go representation). -/

def tailE : Edges → Edges
  | .nilMap => .nilMap
  | .nil => .nil
  | .cons _ _ _ rest => tailE rest

theorem tailE_updE (es : Edges) (b : Nat) (v : List Nat × Node) :
    tailE (updE es b v) = tailE es := by
  induction es using edgesInd with
  | nilMap => rfl
  | nil => rfl
  | cons b' ℓ c rest ih =>
    simp only [updE]
    rcases eq_or_ne b b' with hb | hb
    · simp [hb, tailE]
    · simp [hb, tailE, ih]

theorem tailE_addE : ∀ es b ℓ c, (tailE es = .nil ∨ es = .nilMap) →
    tailE (addE es b ℓ c) = .nil := by
  intro es
  induction es using edgesInd with
  | nilMap => intro b ℓ c _; rfl
  | nil => intro b ℓ c _; rfl
  | cons b' ℓ' c' rest ih =>
    intro b ℓ c h
    rcases h with h | h
    · simp only [tailE] at h
      simp only [addE]
      split_ifs with h1 h2
      · simp only [tailE]; exact h
      · simp only [tailE]; exact h
      · simp only [tailE]; exact ih b ℓ c (Or.inl h)
    · cases h

theorem lenE_addE_ge : ∀ es b ℓ c, lenE es ≤ lenE (addE es b ℓ c) := by
  intro es
  induction es using edgesInd with
  | nilMap => intro b ℓ c; simp [addE, lenE]
  | nil => intro b ℓ c; simp [addE, lenE]
  | cons b' ℓ' c' rest ih =>
    intro b ℓ c
    simp only [addE]
    split_ifs with h1 h2
    · simp [lenE]
    · simp only [lenE]; omega
    · simp only [lenE]
      have := ih b ℓ c
      omega

theorem lenE_addE_pos : ∀ es b ℓ c, 1 ≤ lenE (addE es b ℓ c) := by
  intro es
  induction es using edgesInd with
  | nilMap => intro b ℓ c; simp [addE, lenE]
  | nil => intro b ℓ c; simp [addE, lenE]
  | cons b' ℓ' c' rest ih =>
    intro b ℓ c
    simp only [addE]
    split_ifs with h1 h2 <;> simp [lenE]

theorem lenE_insertE_ge {es : Edges} (hs : sortedE es) (b : Nat) (key d : List Nat) :
    lenE es ≤ lenE (insertE es b key d) := by
  cases hb : lookupE es b with
  | none => rw [insertE_absent hb]; exact lenE_addE_ge es b key _
  | some v =>
    obtain ⟨ℓ, c⟩ := v
    rw [insertE_found hs hb, lenE_updE]

/-- Canonical shape of the nodes an insert-only history can build.  The
flag marks the root, which is exempt from the branching condition. -/
inductive SC : Bool → Node → Prop where
  | mk (isRoot lf : Bool) (dt : List Nat) (es : Edges) :
      sortedE es →
      (∀ b ℓ c, lookupE es b = some (ℓ, c) → ℓ.head? = some b) →
      (∀ b ℓ c, lookupE es b = some (ℓ, c) → SC false c) →
      (isRoot = false → lf = true ∨ 2 ≤ lenE es) →
      (lf = false → dt = []) →
      (isRoot = true → tailE es = Edges.nil) →
      (isRoot = false → es = Edges.nilMap ∨ (1 ≤ lenE es ∧ tailE es = Edges.nil)) →
      SC isRoot (.mk lf dt es)

theorem scSorted {r lf : Bool} {dt : List Nat} {es : Edges}
    (h : SC r (.mk lf dt es)) : sortedE es := by
  cases h; assumption

theorem scHead {r lf : Bool} {dt : List Nat} {es : Edges} (h : SC r (.mk lf dt es)) :
    ∀ b ℓ c, lookupE es b = some (ℓ, c) → ℓ.head? = some b := by
  cases h; assumption

theorem scChild {r lf : Bool} {dt : List Nat} {es : Edges} (h : SC r (.mk lf dt es)) :
    ∀ b ℓ c, lookupE es b = some (ℓ, c) → SC false c := by
  cases h; assumption

theorem scShape {r lf : Bool} {dt : List Nat} {es : Edges} (h : SC r (.mk lf dt es)) :
    r = false → lf = true ∨ 2 ≤ lenE es := by
  cases h; assumption

theorem scDataNil {r lf : Bool} {dt : List Nat} {es : Edges} (h : SC r (.mk lf dt es)) :
    lf = false → dt = [] := by
  cases h; assumption

theorem scRootTail {r lf : Bool} {dt : List Nat} {es : Edges} (h : SC r (.mk lf dt es)) :
    r = true → tailE es = Edges.nil := by
  cases h; assumption

theorem scSubTail {r lf : Bool} {dt : List Nat} {es : Edges} (h : SC r (.mk lf dt es)) :
    r = false → es = Edges.nilMap ∨ (1 ≤ lenE es ∧ tailE es = Edges.nil) := by
  cases h; assumption

theorem SC_leaf (d : List Nat) : SC false (.mk true d .nilMap) := by
  refine SC.mk _ _ _ _ ?_ ?_ ?_ ?_ ?_ ?_ ?_
  · simp [sortedE, rawKeys]
  · intro b ℓ c h; simp [lookupE] at h
  · intro b ℓ c h; simp [lookupE] at h
  · intro _; exact Or.inl rfl
  · intro h; simp at h
  · intro h; simp at h
  · intro _; exact Or.inl rfl

theorem SC_markLeaf {c : Node} (h : SC false c) (d : List Nat) :
    SC false (markLeaf c d) := by
  cases c with
  | mk lf dt es =>
    simp only [markLeaf]
    refine SC.mk _ _ _ _ (scSorted h) (scHead h) (scChild h) ?_ ?_ ?_ ?_
    · intro _; exact Or.inl rfl
    · intro hh; simp at hh
    · intro hh; simp at hh
    · intro _; exact scSubTail h rfl

theorem lenE_addE_pair {t r : Nat} (h : r ≠ t) (ℓt : List Nat) (ct : Node)
    (ℓr : List Nat) (cr : Node) :
    lenE (addE (.cons t ℓt ct .nil) r ℓr cr) = 2 := by
  simp only [addE]
  split_ifs with h1 h2
  · exact absurd h1 h
  · simp [lenE]
  · simp [addE, lenE]

theorem tailE_addE_pair (t : Nat) (ℓt : List Nat) (ct : Node) (r : Nat)
    (ℓr : List Nat) (cr : Node) :
    tailE (addE (.cons t ℓt ct .nil) r ℓr cr) = Edges.nil :=
  tailE_addE _ r ℓr cr (Or.inl rfl)

theorem SC_splitNode {ℓ : List Nat} {c : Node} {key d : List Nat}
    (hc : SC false c) (hs1 : 1 ≤ mismatchAux key ℓ) (hs2 : mismatchAux key ℓ < ℓ.length)
    (hrest : key.drop (mismatchAux key ℓ) ≠ [] → mismatchAux key ℓ < key.length) :
    SC false (splitNode ℓ (mismatchAux key ℓ) c (key.drop (mismatchAux key ℓ)) d) := by
  set s := mismatchAux key ℓ with hsdef
  have htail : ℓ.drop s ≠ [] := drop_ne_nil hs2
  have htailh : (ℓ.drop s).head? = some ((ℓ.drop s).headD 0) := head?_headD htail
  cases hrk : key.drop s with
  | nil =>
    simp only [splitNode]
    refine SC.mk _ _ _ _ ?_ ?_ ?_ ?_ ?_ ?_ ?_
    · simp [sortedE, rawKeys]
    · intro b' ℓ' c' h
      simp only [lookupE] at h
      by_cases hbb : b' = (ℓ.drop s).headD 0
      · rw [if_pos hbb] at h
        simp only [Option.some.injEq, Prod.mk.injEq] at h
        obtain ⟨rfl, rfl⟩ := h
        rw [htailh, hbb]
      · rw [if_neg hbb] at h
        cases h
    · intro b' ℓ' c' h
      simp only [lookupE] at h
      by_cases hbb : b' = (ℓ.drop s).headD 0
      · rw [if_pos hbb] at h
        simp only [Option.some.injEq, Prod.mk.injEq] at h
        obtain ⟨rfl, rfl⟩ := h
        exact hc
      · rw [if_neg hbb] at h
        cases h
    · intro _; exact Or.inl rfl
    · intro hh; simp at hh
    · intro hh; simp at hh
    · intro _; exact Or.inr ⟨by simp [lenE], rfl⟩
  | cons r rs =>
    have hks : s < key.length := hrest (by rw [hrk]; simp)
    have hrne : r ≠ (ℓ.drop s).headD 0 := by
      have := split_heads_ne hks hs2
      rw [hrk] at this
      simpa using this
    simp only [splitNode]
    refine SC.mk _ _ _ _ ?_ ?_ ?_ ?_ ?_ ?_ ?_
    · apply sortedE_addE
      simp [sortedE, rawKeys]
    · intro b' ℓ' c' h
      rcases eq_or_ne b' r with hbr | hbr
      · subst hbr
        rw [lookupE_addE_self] at h
        simp only [Option.some.injEq, Prod.mk.injEq] at h
        obtain ⟨rfl, rfl⟩ := h
        rfl
      · rw [lookupE_addE_ne _ _ _ hbr] at h
        simp only [lookupE] at h
        by_cases hbb : b' = (ℓ.drop s).headD 0
        · rw [if_pos hbb] at h
          simp only [Option.some.injEq, Prod.mk.injEq] at h
          obtain ⟨rfl, rfl⟩ := h
          rw [htailh, hbb]
        · rw [if_neg hbb] at h
          cases h
    · intro b' ℓ' c' h
      rcases eq_or_ne b' r with hbr | hbr
      · subst hbr
        rw [lookupE_addE_self] at h
        simp only [Option.some.injEq, Prod.mk.injEq] at h
        obtain ⟨rfl, rfl⟩ := h
        exact SC_leaf d
      · rw [lookupE_addE_ne _ _ _ hbr] at h
        simp only [lookupE] at h
        by_cases hbb : b' = (ℓ.drop s).headD 0
        · rw [if_pos hbb] at h
          simp only [Option.some.injEq, Prod.mk.injEq] at h
          obtain ⟨rfl, rfl⟩ := h
          exact hc
        · rw [if_neg hbb] at h
          cases h
    · intro _
      refine Or.inr ?_
      rw [lenE_addE_pair hrne]
    · intro _; rfl
    · intro hh; simp at hh
    · intro _
      refine Or.inr ⟨?_, tailE_addE_pair _ _ _ _ _ _⟩
      rw [lenE_addE_pair hrne]
      omega

theorem insertGo_SC_aux : ∀ N n, nodeCount n ≤ N → ∀ r, SC r n →
    ∀ key d, SC r (insertGo n key d) := by
  intro N
  induction N with
  | zero =>
    intro n hle
    have := nodeCount_pos n
    omega
  | succ N ih =>
    intro n hle r hSC key d
    cases key with
    | nil => rw [insertGo_nil]; exact hSC
    | cons b bs =>
      cases n with
      | mk lf dt es =>
        rw [insertGo_cons]
        cases hb : lookupE es b with
        | none =>
          rw [insertE_absent hb]
          refine SC.mk _ _ _ _ (sortedE_addE (scSorted hSC) _ _ _) ?_ ?_ ?_ ?_ ?_ ?_
          · intro b' ℓ' c' h
            rcases eq_or_ne b' b with hbb | hbb
            · subst hbb
              rw [lookupE_addE_self] at h
              simp only [Option.some.injEq, Prod.mk.injEq] at h
              obtain ⟨rfl, rfl⟩ := h
              rfl
            · rw [lookupE_addE_ne _ _ _ hbb] at h
              exact scHead hSC _ _ _ h
          · intro b' ℓ' c' h
            rcases eq_or_ne b' b with hbb | hbb
            · subst hbb
              rw [lookupE_addE_self] at h
              simp only [Option.some.injEq, Prod.mk.injEq] at h
              obtain ⟨rfl, rfl⟩ := h
              exact SC_leaf d
            · rw [lookupE_addE_ne _ _ _ hbb] at h
              exact scChild hSC _ _ _ h
          · intro hr
            rcases scShape hSC hr with h | h
            · exact Or.inl h
            · exact Or.inr (le_trans h (lenE_addE_ge es b _ _))
          · exact scDataNil hSC
          · intro hr
            exact tailE_addE es b _ _ (Or.inl (scRootTail hSC hr))
          · intro hr
            refine Or.inr ⟨lenE_addE_pos es b _ _, ?_⟩
            rcases scSubTail hSC hr with h | h
            · exact tailE_addE es b _ _ (Or.inr h)
            · exact tailE_addE es b _ _ (Or.inl h.2)
        | some v =>
          obtain ⟨ℓ, c⟩ := v
          rw [insertE_found (scSorted hSC) hb]
          have hchild : SC false c := scChild hSC _ _ _ hb
          have hhead : ℓ.head? = some b := scHead hSC _ _ _ hb
          have hu : (insertUpd ℓ c (b :: bs) d).1.head? = some b ∧
              SC false (insertUpd ℓ c (b :: bs) d).2 := by
            rw [insertUpd_eq]
            have hpos : 1 ≤ mismatchAux (b :: bs) ℓ := mismatch_head_pos (by rfl) hhead
            by_cases hif : mismatchAux (b :: bs) ℓ = ℓ.length
            · rw [if_pos hif]
              by_cases hlen : (b :: bs).length = ℓ.length
              · rw [if_pos hlen]
                exact ⟨hhead, SC_markLeaf hchild d⟩
              · rw [if_neg hlen]
                refine ⟨hhead, ?_⟩
                have hlt := lookupE_nodeCount_lt hb lf dt
                exact ih c (by omega) false hchild _ d
            · rw [if_neg hif]
              have hs2 : mismatchAux (b :: bs) ℓ < ℓ.length := by
                have := mismatchAux_le_right (b :: bs) ℓ
                omega
              refine ⟨?_, ?_⟩
              · rw [head?_take hpos, hhead]
              · refine SC_splitNode hchild hpos hs2 ?_
                intro hne
                by_contra hge
                have hlen : (b :: bs).length ≤ mismatchAux (b :: bs) ℓ := by omega
                have := mismatchAux_le_left (b :: bs) ℓ
                have heq : mismatchAux (b :: bs) ℓ = (b :: bs).length := by omega
                exact hne (by rw [heq]; simp)
          refine SC.mk _ _ _ _ (sortedE_updE (scSorted hSC) _ _) ?_ ?_ ?_ ?_ ?_ ?_
          · intro b' ℓ' c' h
            rcases eq_or_ne b' b with hbb | hbb
            · subst hbb
              rw [lookupE_updE_self hb] at h
              simp only [Option.some.injEq] at h
              have h1 := hu.1
              rw [h] at h1
              exact h1
            · rw [lookupE_updE_ne _ _ hbb] at h
              exact scHead hSC _ _ _ h
          · intro b' ℓ' c' h
            rcases eq_or_ne b' b with hbb | hbb
            · subst hbb
              rw [lookupE_updE_self hb] at h
              simp only [Option.some.injEq] at h
              have h2 := hu.2
              rw [h] at h2
              exact h2
            · rw [lookupE_updE_ne _ _ hbb] at h
              exact scChild hSC _ _ _ h
          · intro hr
            rcases scShape hSC hr with h | h
            · exact Or.inl h
            · rw [lenE_updE]; exact Or.inr h
          · exact scDataNil hSC
          · intro hr
            rw [tailE_updE]
            exact scRootTail hSC hr
          · intro hr
            rcases scSubTail hSC hr with h | h
            · subst h; simp [lookupE] at hb
            · refine Or.inr ⟨?_, ?_⟩
              · rw [lenE_updE]; exact h.1
              · rw [tailE_updE]; exact h.2

theorem insertGo_SC {n : Node} {r : Bool} (h : SC r n) (key d : List Nat) :
    SC r (insertGo n key d) :=
  insertGo_SC_aux (nodeCount n) n (le_refl _) r h key d

theorem NewTrie_SC : SC true (Node.mk false [] Edges.nil) := by
  refine SC.mk _ _ _ _ ?_ ?_ ?_ ?_ ?_ ?_ ?_
  · simp [sortedE, rawKeys]
  · intro b ℓ c h; simp [lookupE] at h
  · intro b ℓ c h; simp [lookupE] at h
  · intro hh; simp at hh
  · intro _; rfl
  · intro _; rfl
  · intro hh; simp at hh

theorem runOps_SC : ∀ ops t t', insOnly ops = true → runOps t ops = some t' →
    SC true t.root → SC true t'.root := by
  intro ops
  induction ops with
  | nil =>
    intro t t' _ hrun h
    simp only [runOps, Option.some.injEq] at hrun
    rw [← hrun]
    exact h
  | cons op ops ih =>
    intro t t' hins hrun h
    cases op with
    | ins k d =>
      simp only [insOnly] at hins
      simp only [runOps, applyOp] at hrun
      exact ih _ _ hins hrun (insertGo_SC h k d)
    | del k =>
      simp only [insOnly] at hins
      exact absurd hins (by simp)

theorem InsReachable_SC {t : Trie} (h : InsReachable t) : SC true t.root := by
  obtain ⟨ops, hins, hrun⟩ := h
  exact runOps_SC ops NewTrie t hins hrun NewTrie_SC

/-! ### The canonical shape is determined by the stored map -/

theorem SC_nonempty : ∀ N n, nodeCount n ≤ N → SC false n →
    ∃ s, stored n s ≠ none := by
  intro N
  induction N with
  | zero =>
    intro n hle
    have := nodeCount_pos n
    omega
  | succ N ih =>
    intro n hle hSC
    cases n with
    | mk lf dt es =>
      cases lf with
      | true => exact ⟨[], by rw [stored_nil_key]; simp⟩
      | false =>
        rcases scShape hSC rfl with h | h
        · simp at h
        · cases es with
          | nilMap => simp [lenE] at h
          | nil => simp [lenE] at h
          | cons b1 ℓ1 c1 rest =>
            have hb1 : lookupE (Edges.cons b1 ℓ1 c1 rest) b1 = some (ℓ1, c1) := by
              simp [lookupE]
            have hc1 : SC false c1 := scChild hSC _ _ _ hb1
            have hh1 : ℓ1.head? = some b1 := scHead hSC _ _ _ hb1
            have hcnt : nodeCount c1 ≤ N := by
              have := lookupE_nodeCount_lt hb1 false dt
              omega
            obtain ⟨s1, hs1⟩ := ih c1 hcnt hc1
            exact ⟨ℓ1 ++ s1, by rw [stored_through hb1 hh1]; exact hs1⟩

theorem SC_branch {lf : Bool} {dt : List Nat} {es : Edges}
    (hSC : SC false (.mk lf dt es)) (hlf : lf = false) :
    ∃ s1 s2, stored (Node.mk lf dt es) s1 ≠ none ∧
      stored (Node.mk lf dt es) s2 ≠ none ∧ s1.head? ≠ s2.head? := by
  subst hlf
  rcases scShape hSC rfl with h | h
  · simp at h
  · cases es with
    | nilMap => simp [lenE] at h
    | nil => simp [lenE] at h
    | cons b1 ℓ1 c1 rest =>
      cases rest with
      | nilMap => simp [lenE] at h
      | nil => simp [lenE] at h
      | cons b2 ℓ2 c2 rest2 =>
        have hlt : b1 < b2 := sortedE_head_lt (scSorted hSC) (by simp [rawKeys])
        have hne : b2 ≠ b1 := by omega
        have hb1 : lookupE (Edges.cons b1 ℓ1 c1 (Edges.cons b2 ℓ2 c2 rest2)) b1 =
            some (ℓ1, c1) := by simp [lookupE]
        have hb2 : lookupE (Edges.cons b1 ℓ1 c1 (Edges.cons b2 ℓ2 c2 rest2)) b2 =
            some (ℓ2, c2) := by simp [lookupE, hne]
        have hc1 := scChild hSC _ _ _ hb1
        have hc2 := scChild hSC _ _ _ hb2
        have hh1 := scHead hSC _ _ _ hb1
        have hh2 := scHead hSC _ _ _ hb2
        obtain ⟨s1, hs1⟩ := SC_nonempty (nodeCount c1) c1 (le_refl _) hc1
        obtain ⟨s2, hs2⟩ := SC_nonempty (nodeCount c2) c2 (le_refl _) hc2
        refine ⟨ℓ1 ++ s1, ℓ2 ++ s2, ?_, ?_, ?_⟩
        · rw [stored_through hb1 hh1]; exact hs1
        · rw [stored_through hb2 hh2]; exact hs2
        · rw [head?_append_of_some hh1, head?_append_of_some hh2]
          simp
          omega

theorem SC_forced_head : ∀ {lfc : Bool} {dtc : List Nat} {esc : Edges},
    SC false (.mk lfc dtc esc) → ∀ (x : Nat) (w : List Nat),
    (∀ s, stored (Node.mk lfc dtc esc) s ≠ none → ∃ u, s = x :: (w ++ u)) → False := by
  intro lfc dtc esc hc x w hall
  cases lfc with
  | true =>
    obtain ⟨u, hu⟩ := hall [] (by rw [stored_nil_key]; simp)
    simp at hu
  | false =>
    obtain ⟨s1, s2, h1, h2, hne⟩ := SC_branch hc rfl
    obtain ⟨u1, hu1⟩ := hall s1 h1
    obtain ⟨u2, hu2⟩ := hall s2 h2
    apply hne
    rw [hu1, hu2]
    rfl

theorem SC_label_eq {c : Node} (hc : SC false c) {ℓ ℓ' : List Nat}
    (hw : ∃ w, ℓ' = ℓ ++ w)
    (hext : ∀ s, stored c s ≠ none → ∃ u, ℓ ++ s = ℓ' ++ u) : ℓ = ℓ' := by
  obtain ⟨w, rfl⟩ := hw
  cases w with
  | nil => simp
  | cons x w' =>
    exfalso
    cases c with
    | mk lfc dtc esc =>
      apply SC_forced_head hc x w'
      intro s hs
      obtain ⟨u, hu⟩ := hext s hs
      refine ⟨u, ?_⟩
      rw [List.append_assoc] at hu
      have := List.append_cancel_left hu
      simpa using this

/-- A sorted association chain is determined by its lookup function and
its base constructor. -/
theorem sortedE_ext : ∀ es es' : Edges, sortedE es → sortedE es' →
    (∀ b, lookupE es b = lookupE es' b) → tailE es = tailE es' → es = es' := by
  intro es
  induction es using edgesInd with
  | nilMap =>
    intro es' _ _ hlook htail
    cases es' with
    | nilMap => rfl
    | nil => simp [tailE] at htail
    | cons b ℓ c rest =>
      have := hlook b
      simp [lookupE] at this
  | nil =>
    intro es' _ _ hlook htail
    cases es' with
    | nilMap => simp [tailE] at htail
    | nil => rfl
    | cons b ℓ c rest =>
      have := hlook b
      simp [lookupE] at this
  | cons b ℓ c rest ih =>
    intro es' hs hs' hlook htail
    cases es' with
    | nilMap =>
      have := hlook b
      simp [lookupE] at this
    | nil =>
      have := hlook b
      simp [lookupE] at this
    | cons b2 ℓ2 c2 rest2 =>
      have h1 : lookupE (Edges.cons b ℓ c rest) b = some (ℓ, c) := by simp [lookupE]
      have h2 : lookupE (Edges.cons b2 ℓ2 c2 rest2) b2 = some (ℓ2, c2) := by simp [lookupE]
      have hbb : b = b2 := by
        by_contra hne
        have hm1 : b ∈ rawKeys (Edges.cons b2 ℓ2 c2 rest2) :=
          lookupE_mem_keys (v := (ℓ, c)) (by rw [← hlook b]; exact h1)
        have hm2 : b2 ∈ rawKeys (Edges.cons b ℓ c rest) :=
          lookupE_mem_keys (v := (ℓ2, c2)) (by rw [hlook b2]; exact h2)
        simp only [rawKeys, List.mem_cons] at hm1 hm2
        rcases hm1 with h | h
        · exact hne h
        · have hlt1 : b2 < b := sortedE_head_lt hs' h
          rcases hm2 with h' | h'
          · exact hne h'.symm
          · have hlt2 : b < b2 := sortedE_head_lt hs h'
            omega
      subst hbb
      have hent : some (ℓ, c) = some (ℓ2, c2) := by
        rw [← h1, hlook b]
        exact h2
      simp only [Option.some.injEq, Prod.mk.injEq] at hent
      obtain ⟨hl2, hc2⟩ := hent
      subst hl2
      subst hc2
      have hlr : ∀ b', lookupE rest b' = lookupE rest2 b' := by
        intro b'
        rcases eq_or_ne b' b with rfl | hne
        · have hn1 : lookupE rest b' = none := by
            rw [lookupE_none_iff]
            intro hmem
            exact absurd (sortedE_head_lt hs hmem) (lt_irrefl _)
          have hn2 : lookupE rest2 b' = none := by
            rw [lookupE_none_iff]
            intro hmem
            exact absurd (sortedE_head_lt hs' hmem) (lt_irrefl _)
          rw [hn1, hn2]
        · have := hlook b'
          simp only [lookupE, if_neg hne] at this
          exact this
      have htr : tailE rest = tailE rest2 := htail
      rw [ih rest2 (sortedE_rest hs) (sortedE_rest hs') hlr htr]

/-- Two nodes in canonical shape holding the same key-to-data map are
identical. -/
theorem SC_unique : ∀ N, ∀ n n' : Node, nodeCount n ≤ N → ∀ r, SC r n → SC r n' →
    (∀ k, stored n k = stored n' k) → n = n' := by
  intro N
  induction N with
  | zero =>
    intro n n' hle
    have := nodeCount_pos n
    omega
  | succ N ih =>
    intro n n' hle r h h' hsame
    cases n with
    | mk lf dt es =>
      cases n' with
      | mk lf' dt' es' =>
        have hnil := hsame []
        rw [stored_nil_key, stored_nil_key] at hnil
        have hlf : lf = lf' := by
          cases lf <;> cases lf' <;> first | rfl | simp at hnil
        subst hlf
        have hdt : dt = dt' := by
          cases hl : lf with
          | true =>
            rw [hl] at hnil
            simpa using hnil
          | false => rw [scDataNil h hl, scDataNil h' hl]
        subst hdt
        have hlookeq : ∀ b, lookupE es b = lookupE es' b := by
          intro b
          cases hb : lookupE es b with
          | none =>
            cases hb' : lookupE es' b with
            | none => rfl
            | some v' =>
              exfalso
              obtain ⟨ℓ', c'⟩ := v'
              have hc' : SC false c' := scChild h' _ _ _ hb'
              have hh' : ℓ'.head? = some b := scHead h' _ _ _ hb'
              obtain ⟨s', hs'⟩ := SC_nonempty (nodeCount c') c' (le_refl _) hc'
              have hst : stored (Node.mk lf dt es') (ℓ' ++ s') ≠ none := by
                rw [stored_through hb' hh']
                exact hs'
              rw [← hsame] at hst
              exact hst (stored_no_edge hb (head?_append_of_some hh' s') _ _)
          | some v =>
            obtain ⟨ℓ, c⟩ := v
            cases hb' : lookupE es' b with
            | none =>
              exfalso
              have hc : SC false c := scChild h _ _ _ hb
              have hh : ℓ.head? = some b := scHead h _ _ _ hb
              obtain ⟨s, hs⟩ := SC_nonempty (nodeCount c) c (le_refl _) hc
              have hst : stored (Node.mk lf dt es) (ℓ ++ s) ≠ none := by
                rw [stored_through hb hh]
                exact hs
              rw [hsame] at hst
              exact hst (stored_no_edge hb' (head?_append_of_some hh s) _ _)
            | some v' =>
              obtain ⟨ℓ', c'⟩ := v'
              have hc : SC false c := scChild h _ _ _ hb
              have hc' : SC false c' := scChild h' _ _ _ hb'
              have hh : ℓ.head? = some b := scHead h _ _ _ hb
              have hh' : ℓ'.head? = some b := scHead h' _ _ _ hb'
              have hext : ∀ s, stored c s ≠ none → ∃ u, ℓ ++ s = ℓ' ++ u := by
                intro s hs
                by_contra hnp
                push_neg at hnp
                have h1 : stored (Node.mk lf dt es) (ℓ ++ s) ≠ none := by
                  rw [stored_through hb hh]
                  exact hs
                rw [hsame] at h1
                exact h1 (stored_not_through hb' (head?_append_of_some hh s) hnp _ _)
              have hext' : ∀ s, stored c' s ≠ none → ∃ u, ℓ' ++ s = ℓ ++ u := by
                intro s hs
                by_contra hnp
                push_neg at hnp
                have h1 : stored (Node.mk lf dt es') (ℓ' ++ s) ≠ none := by
                  rw [stored_through hb' hh']
                  exact hs
                rw [← hsame] at h1
                exact h1 (stored_not_through hb (head?_append_of_some hh' s) hnp _ _)
              obtain ⟨s0, hs0⟩ := SC_nonempty (nodeCount c) c (le_refl _) hc
              obtain ⟨u0, hu0⟩ := hext s0 hs0
              have hll : ℓ = ℓ' := by
                rcases prefix_comparable ℓ ℓ' s0 u0 hu0 with hpre | hpre
                · exact SC_label_eq hc hpre hext
                · exact (SC_label_eq hc' hpre hext').symm
              subst hll
              have hcc : ∀ s, stored c s = stored c' s := by
                intro s
                rw [← stored_through hb hh lf dt s, hsame,
                  stored_through hb' hh' lf dt s]
              have hcnt : nodeCount c ≤ N := by
                have := lookupE_nodeCount_lt hb lf dt
                omega
              rw [ih c c' hcnt false hc hc' hcc]
        have htaileq : tailE es = tailE es' := by
          cases r with
          | true => rw [scRootTail h rfl, scRootTail h' rfl]
          | false =>
            rcases scSubTail h rfl with he | he <;> rcases scSubTail h' rfl with he' | he'
            · rw [he, he']
            · exfalso
              rcases (Nat.one_le_iff_ne_zero.mp he'.1 : lenE es' ≠ 0) with hne
              cases es' with
              | nilMap => exact hne rfl
              | nil => exact hne rfl
              | cons b2 ℓ2 c2 rest2 =>
                have := hlookeq b2
                rw [he] at this
                simp [lookupE] at this
            · exfalso
              rcases (Nat.one_le_iff_ne_zero.mp he.1 : lenE es ≠ 0) with hne
              cases es with
              | nilMap => exact hne rfl
              | nil => exact hne rfl
              | cons b2 ℓ2 c2 rest2 =>
                have := hlookeq b2
                rw [he'] at this
                simp [lookupE] at this
            · rw [he.2, he'.2]
        rw [sortedE_ext es es' (scSorted h) (scSorted h') hlookeq htaileq]

/-- C8 counterexample: two trie states holding the same (empty) key set
whose sorted traversals differ.  Deleting both keys of the trie
{[1] ↦ [5], [1,2] ↦ [6]} leaves a dead non-leaf node behind (the
delete terminal case tests node.edges == nil, and this node's map was
merely emptied), so the reachable state traverses two nodes while the
fresh empty trie traverses one: traversal output is not determined by
the key set, refuting the determinism half of the claim. -/
theorem C8_counterexample :
    runOps NewTrie [Op.ins [1] [5], Op.ins [1, 2] [6], Op.del [1, 2], Op.del [1]] =
      some ⟨Node.mk false [] (Edges.cons 1 [1] (Node.mk false [5] Edges.nil) Edges.nil),
        false⟩ ∧
    runOps NewTrie [] = some NewTrie ∧
    subKeys (Node.mk false [] (Edges.cons 1 [1] (Node.mk false [5] Edges.nil) Edges.nil)) =
      subKeys NewTrie.root ∧
    sortedSeq ⟨Node.mk false [] (Edges.cons 1 [1] (Node.mk false [5] Edges.nil) Edges.nil),
        false⟩ ≠
      sortedSeq NewTrie := by
  refine ⟨by decide, rfl, by decide, by decide⟩

/-- C8 (amended): with the sorted flag the children of every node are
visited in strictly ascending key order (the key of an edge is the
first byte of its label), and traversal is deterministic across tries
built by insertions alone: two insert-only tries holding the same
key-to-data map produce identical sorted traversal sequences. -/
theorem C8_sorted_deterministic {t1 t2 : Trie} (h1 : InsReachable t1)
    (h2 : InsReachable t2) (hsame : ∀ k, stored t1.root k = stored t2.root k) :
    sortedSeq t1 = sortedSeq t2 ∧
      ∀ es, sortedE es → (keysF es true).Pairwise (fun a b => a < b) := by
  constructor
  · have hroot := SC_unique (nodeCount t1.root) t1.root t2.root (le_refl _) true
      (InsReachable_SC h1) (InsReachable_SC h2) hsame
    unfold sortedSeq
    rw [hroot]
  · intro es hs
    have hsorted : List.Sorted (fun a b => a ≤ b) (rawKeys es) :=
      hs.imp (fun h => le_of_lt h)
    have hkeq : keysF es true = (rawKeys es).insertionSort (fun a b => a ≤ b) := rfl
    rw [hkeq, List.Sorted.insertionSort_eq hsorted]
    exact hs

theorem C8_witness :
    sortedSeq ⟨Node.mk false []
        (Edges.cons 1 [1] (Node.mk true [7]
          (Edges.cons 2 [2] (Node.mk true [8] Edges.nilMap) Edges.nil)) Edges.nil),
        false⟩ =
      sortedSeq ⟨Node.mk false []
        (Edges.cons 1 [1] (Node.mk true [7]
          (Edges.cons 2 [2] (Node.mk true [8] Edges.nilMap) Edges.nil)) Edges.nil),
        false⟩ ∧
    (keysF (Edges.cons 1 [1] (Node.mk true [7]
        (Edges.cons 2 [2] (Node.mk true [8] Edges.nilMap) Edges.nil)) Edges.nil)
      true).Pairwise (fun a b => a < b) := by
  have h1 : InsReachable ⟨Node.mk false []
      (Edges.cons 1 [1] (Node.mk true [7]
        (Edges.cons 2 [2] (Node.mk true [8] Edges.nilMap) Edges.nil)) Edges.nil),
      false⟩ :=
    ⟨[Op.ins [1] [7], Op.ins [1, 2] [8]], by decide, by decide⟩
  have h2 : InsReachable ⟨Node.mk false []
      (Edges.cons 1 [1] (Node.mk true [7]
        (Edges.cons 2 [2] (Node.mk true [8] Edges.nilMap) Edges.nil)) Edges.nil),
      false⟩ :=
    ⟨[Op.ins [1, 2] [8], Op.ins [1] [7]], by decide, by decide⟩
  have h := C8_sorted_deterministic h1 h2 (fun k => rfl)
  exact ⟨h.1, h.2 _ (by unfold sortedE; decide)⟩
